import Mathlib

/-!
Bogoliubov-de Gennes Hamiltonian of `src/src/main.cpp`

A shallow embedding of `main`: the Zeeman profile (lines 67-79), the order
parameter arrays (lines 81-92), the Hamiltonian construction loop (lines
94-201) and the LDOS request (lines 226-256), followed by the properties of the
matrix the loop builds.

Modelling conventions.

* `complex<double>` is idealised as the exact complex numbers `ℂ`, and the
  `double` values produced by `sqrt` and `atan` as exact reals; rounding,
  infinities and NaN are not modelled.  In particular the quotient
  `(r-RADIUS)/BOUNDARY_WIDTH` is the real quotient, which is meaningful for
  `BOUNDARY_WIDTH ≠ 0` only.  The definitions that contain the literal `1/2.`
  or the Zeeman profile are marked `noncomputable`: Lean has no executable
  code for division in `ℂ` or for `Real.arctan`.
* The `double` parameters read from the parameter file are finite decimal
  numbers and are taken in `ℚ`, which keeps their comparisons decidable.
* `int` loop counters and lattice sizes are natural numbers; the only
  possibly negative integers, `rx` and `ry`, are in `Int`.  Signed overflow
  of `rx*rx + ry*ry` (undefined behaviour in C++) is not modelled.
* A TBTK index `{x, y, s}` is the structure `Index`.  `HoppingAmplitude(a,
  to, from)` is the structure `HoppingAmplitude`; `+ HC` pairs an amplitude
  with its Hermitian conjugate, and `model << ...` appends to the list of
  hopping amplitudes of the model.  The matrix element `H[a][b]` is the sum of
  the amplitudes of all hopping amplitudes from `b` to `a`.
* The TBTK library itself is not part of the source file.  Where a property
  depends on what the library does with the arguments `main` hands to it (the
  scale factor, the energy window, the index pattern of the LDOS request),
  that behaviour is modelled from the specification and marked as such.
-/

open ComplexConjugate

namespace TBTK

/-! ## The data model and the Hamiltonian construction loop (lines 28-201) -/

/-- A TBTK index `{x, y, s}`: site `(x, y)` and sector `s`. -/
structure Index where
  x : Nat
  y : Nat
  s : Nat
deriving DecidableEq, Repr

/-- `HoppingAmplitude(amplitude, toIndex, fromIndex)`. -/
structure HoppingAmplitude where
  amplitude : ℂ
  toIndex : Index
  fromIndex : Index

/-- The Hermitian conjugate of a hopping amplitude: the amplitude is
conjugated and the two indices are exchanged. -/
def HoppingAmplitude.getHermitianConjugate (h : HoppingAmplitude) : HoppingAmplitude :=
  ⟨conj h.amplitude, h.fromIndex, h.toIndex⟩

/-- One `model << ...` statement of `main`: the hopping amplitude that is
written there, and whether it is followed by `+ HC`. -/
structure Statement where
  ha : HoppingAmplitude
  hc : Bool

/-- The hopping amplitudes one statement adds to the model: the amplitude
itself, and its Hermitian conjugate when the statement ends in `+ HC`. -/
def Statement.emit (st : Statement) : List HoppingAmplitude :=
  if st.hc then [st.ha, st.ha.getHermitianConjugate] else [st.ha]

/-- The parameters `main` reads from the file "Parameters" (lines 38-65). -/
structure Parameters where
  SIZE_X : Nat
  SIZE_Y : Nat
  RADIUS : ℚ
  BOUNDARY_WIDTH : ℚ
  NUM_COEFFICIENTS : Int
  ENERGY_RESOLUTION : Int
  SCALE_FACTOR : ℚ
  LOWER_BOUND : ℚ
  UPPER_BOUND : ℚ
  mu : ℂ
  t : ℂ
  D_s : ℂ
  D_t : ℂ
  alpha : ℂ
  V_z : ℂ
  cut1D : Bool

/-- The real factor `(M_PI/2. - atan((r-RADIUS)/BOUNDARY_WIDTH))/(M_PI)` of
lines 72-77, with `r = sqrt(rx*rx + ry*ry)`. -/
noncomputable def zeemanProfile (p : Parameters) (x y : Nat) : ℝ :=
  let rx : Int := (x : Int) - ((p.SIZE_X / 2 : Nat) : Int)
  let ry : Int := (y : Int) - ((p.SIZE_Y / 2 : Nat) : Int)
  let r : ℝ := Real.sqrt ((rx * rx + ry * ry : Int) : ℝ)
  (Real.pi / 2 - Real.arctan ((r - (p.RADIUS : ℝ)) / (p.BOUNDARY_WIDTH : ℝ))) / Real.pi

/-- The array `magnetization[x][y]` of lines 67-79:
`V_z*(M_PI/2. - atan((r-RADIUS)/BOUNDARY_WIDTH))/(M_PI)`. -/
noncomputable def magnetization (p : Parameters) (x y : Nat) : ℂ :=
  let rx : Int := (x : Int) - ((p.SIZE_X / 2 : Nat) : Int)
  let ry : Int := (y : Int) - ((p.SIZE_Y / 2 : Nat) : Int)
  let r : ℝ := Real.sqrt ((rx * rx + ry * ry : Int) : ℝ)
  p.V_z * ((Real.pi / 2 - Real.arctan ((r - (p.RADIUS : ℝ)) / (p.BOUNDARY_WIDTH : ℝ)) : ℝ) : ℂ)
    / ((Real.pi : ℝ) : ℂ)

/-- The array `orderparameterS[x][y]` of lines 82-92. -/
def orderparameterS (p : Parameters) (_x _y : Nat) : ℂ := p.D_s

/-- The array `orderparameterP[x][y]` of lines 82-92. -/
def orderparameterP (p : Parameters) (_x _y : Nat) : ℂ := p.D_t

/-- The four on-site statements of lines 101-123 (chemical potential and
Zeeman term), none of them with `+ HC`. -/
noncomputable def onSiteStatements (p : Parameters) (x y s : Nat) : List Statement :=
  [ ⟨⟨-p.mu, ⟨x, y, s⟩, ⟨x, y, s⟩⟩, false⟩,
    ⟨⟨p.mu, ⟨x, y, s + 2⟩, ⟨x, y, s + 2⟩⟩, false⟩,
    ⟨⟨2 * magnetization p x y * ((s : ℂ) - 1 / 2), ⟨x, y, s⟩, ⟨x, y, s⟩⟩, false⟩,
    ⟨⟨-2 * magnetization p x y * ((s : ℂ) - 1 / 2), ⟨x, y, s + 2⟩, ⟨x, y, s + 2⟩⟩, false⟩ ]

/-- The six statements of lines 127-158, inside `if(x+1 < SIZE_X)`. -/
noncomputable def xBondStatements (p : Parameters) (x y s : Nat) : List Statement :=
  if x + 1 < p.SIZE_X then
    [ ⟨⟨-p.t, ⟨(x + 1) % p.SIZE_X, y, s⟩, ⟨x, y, s⟩⟩, true⟩,
      ⟨⟨p.t, ⟨(x + 1) % p.SIZE_X, y, s + 2⟩, ⟨x, y, s + 2⟩⟩, true⟩,
      ⟨⟨-p.alpha * 2 * (1 / 2 - (s : ℂ)), ⟨(x + 1) % p.SIZE_X, y, (s + 1) % 2⟩, ⟨x, y, s⟩⟩, true⟩,
      ⟨⟨p.alpha * 2 * (1 / 2 - (s : ℂ)), ⟨(x + 1) % p.SIZE_X, y, (s + 1) % 2 + 2⟩,
        ⟨x, y, s + 2⟩⟩, true⟩,
      ⟨⟨orderparameterP p x y * 2 * (1 / 2 - (s : ℂ)), ⟨(x + 1) % p.SIZE_X, y, s + 2⟩,
        ⟨x, y, s⟩⟩, true⟩,
      ⟨⟨-orderparameterP p x y * 2 * (1 / 2 - (s : ℂ)), ⟨(x + 1) % p.SIZE_X, y, s⟩,
        ⟨x, y, s + 2⟩⟩, true⟩ ]
  else []

/-- The six statements of lines 159-190, inside `if(y+1 < SIZE_Y)`. -/
def yBondStatements (p : Parameters) (x y s : Nat) : List Statement :=
  if y + 1 < p.SIZE_Y then
    [ ⟨⟨-p.t, ⟨x, (y + 1) % p.SIZE_Y, s⟩, ⟨x, y, s⟩⟩, true⟩,
      ⟨⟨p.t, ⟨x, (y + 1) % p.SIZE_Y, s + 2⟩, ⟨x, y, s + 2⟩⟩, true⟩,
      ⟨⟨-Complex.I * p.alpha, ⟨x, (y + 1) % p.SIZE_Y, (s + 1) % 2⟩, ⟨x, y, s⟩⟩, true⟩,
      ⟨⟨-Complex.I * p.alpha, ⟨x, (y + 1) % p.SIZE_Y, (s + 1) % 2 + 2⟩, ⟨x, y, s + 2⟩⟩, true⟩,
      ⟨⟨Complex.I * orderparameterP p x y, ⟨x, (y + 1) % p.SIZE_Y, s + 2⟩, ⟨x, y, s⟩⟩, true⟩,
      ⟨⟨Complex.I * orderparameterP p x y, ⟨x, (y + 1) % p.SIZE_Y, s⟩, ⟨x, y, s + 2⟩⟩, true⟩ ]
  else []

/-- The statement of lines 194-198 (s-wave order parameter). -/
noncomputable def pairingStatements (p : Parameters) (x y s : Nat) : List Statement :=
  [ ⟨⟨2 * orderparameterS p x y * ((s : ℂ) - 1 / 2), ⟨x, y, 3 - s⟩, ⟨x, y, s⟩⟩, true⟩ ]

/-- The body of the innermost loop (lines 98-199), in source order. -/
noncomputable def loopBody (p : Parameters) (x y s : Nat) : List Statement :=
  onSiteStatements p x y s ++ xBondStatements p x y s ++ yBondStatements p x y s
    ++ pairingStatements p x y s

/-- All `model << ...` statements executed by the loops of lines 96-201:
`x` from `0` to `SIZE_X-1`, `y` from `0` to `SIZE_Y-1`, `s` from `0` to `1`. -/
noncomputable def statements (p : Parameters) : List Statement :=
  (List.range p.SIZE_X).flatMap fun x =>
    (List.range p.SIZE_Y).flatMap fun y =>
      (List.range 2).flatMap fun s => loopBody p x y s

/-- The hopping amplitudes held by `model` after the loops: every statement's
amplitude, followed by its Hermitian conjugate where `+ HC` is written. -/
noncomputable def model (p : Parameters) : List HoppingAmplitude :=
  (statements p).flatMap Statement.emit

/-- The matrix element `H[a][b]` accumulated from a list of hopping
amplitudes: each one adds its amplitude to `H[toIndex][fromIndex]`. -/
def accumulate (terms : List HoppingAmplitude) (a b : Index) : ℂ :=
  (terms.map fun h => if h.toIndex = a ∧ h.fromIndex = b then h.amplitude else 0).sum

/-- The Hamiltonian matrix of `main`. -/
noncomputable def H (p : Parameters) (a b : Index) : ℂ :=
  accumulate (model p) a b

/-! ## The LDOS request (lines 226-256) -/

/-- An entry of an index pattern handed to `calculateSpinPolarizedLDOS`: one of
the wildcard flags `IDX_X`, `IDX_Y`, `IDX_SPIN`, or a fixed value. -/
inductive Subindex where
  | IDX_X : Subindex
  | IDX_Y : Subindex
  | IDX_SPIN : Subindex
  | value (n : Nat) : Subindex
deriving DecidableEq, Repr

/-- The arguments of the call `pe.calculateSpinPolarizedLDOS(pattern, ranges)`
together with the energy resolution set by `pe.setEnergyWindow`. -/
structure LDOSRequest where
  pattern : List Subindex
  ranges : List Nat
  energyResolution : Int
deriving DecidableEq, Repr

/-- The request issued by lines 233-256: along the cut `y = SIZE_Y/2` when
`cut1D` is set, over the full surface otherwise. -/
def ldosRequest (p : Parameters) : LDOSRequest :=
  if p.cut1D then
    ⟨[Subindex.IDX_X, Subindex.value (p.SIZE_Y / 2), Subindex.IDX_SPIN], [p.SIZE_X, 1, 2],
      p.ENERGY_RESOLUTION⟩
  else
    ⟨[Subindex.IDX_X, Subindex.IDX_Y, Subindex.IDX_SPIN], [p.SIZE_X, p.SIZE_Y, 2],
      p.ENERGY_RESOLUTION⟩

/-! ## Notions used to state the claims -/

/-- The coordinates within the lattice: `0 ≤ x < SIZE_X`, `0 ≤ y < SIZE_Y` and
sector in `{0,1,2,3}`. -/
def Index.inBounds (p : Parameters) (c : Index) : Prop :=
  c.x < p.SIZE_X ∧ c.y < p.SIZE_Y ∧ c.s < 4

instance (p : Parameters) (c : Index) : Decidable (c.inBounds p) := by
  unfold Index.inBounds; infer_instance

/-- The basis of the model: every index that is the destination or the source
of one of its hopping amplitudes. -/
noncomputable def basis (p : Parameters) : Finset Index :=
  ((model p).map HoppingAmplitude.toIndex ++ (model p).map HoppingAmplitude.fromIndex).toFinset

/-- The exchange of particle and hole sectors:
`(x, y, sector) -> (x, y, (sector+2) mod 4)`. -/
def particleHole (a : Index) : Index := ⟨a.x, a.y, (a.s + 2) % 4⟩

/-- The Hamiltonian as a square matrix over the basis of the model. -/
noncomputable def hamiltonian (p : Parameters) : Matrix (basis p) (basis p) ℂ :=
  Matrix.of fun a b => H p a.1 b.1

/-- The bound `|mu| + |V_z| + 4(|t| + |alpha| + |D_t|) + |D_s|` on the absolute
row sums. -/
noncomputable def spectralBound (p : Parameters) : ℝ :=
  ‖p.mu‖ + ‖p.V_z‖ + 4 * (‖p.t‖ + ‖p.alpha‖ + ‖p.D_t‖) + ‖p.D_s‖

/-! ## Library behaviour modelled from the spec -/

/-- Modelled from the spec: the rescaled Hamiltonian `H_rescaled = H / a` of the
Chebyshev solver, with `a` the scale factor handed to `setScaleFactor`; the
solver itself is not part of the source file. -/
noncomputable def rescaledHamiltonian (p : Parameters) : Matrix (basis p) (basis p) ℂ :=
  ((p.SCALE_FACTOR : ℝ) : ℂ)⁻¹ • hamiltonian p

/-- Modelled from the spec: the values one pattern entry stands for in
`calculateSpinPolarizedLDOS`, which is not part of the source file: a fixed
value stands for itself, a wildcard flag for `0 .. range-1`. -/
def Subindex.values : Subindex → Nat → List Nat
  | Subindex.value n, _ => [n]
  | _, r => List.range r

/-- Modelled from the spec: the lattice sites `(x, y)` a request addresses. -/
def LDOSRequest.sites (r : LDOSRequest) : List (Nat × Nat) :=
  match r.pattern, r.ranges with
  | [px, py, _], [rx, ry, _] => (px.values rx).flatMap fun x => (py.values ry).map fun y => (x, y)
  | _, _ => []

/-- Modelled from the spec: the spin channels a request addresses at each site. -/
def LDOSRequest.spinChannels (r : LDOSRequest) : List Nat :=
  match r.pattern, r.ranges with
  | [_, _, ps], [_, _, rs] => ps.values rs
  | _, _ => []

/-- The sum of a quantity over the iterations of the three loops of lines
96-98. -/
def loopsSum {M : Type} [AddCommMonoid M] (SX SY : Nat) (g : Nat → Nat → Nat → M) : M :=
  ((List.range SX).map fun x => ((List.range SY).map fun y =>
    ((List.range 2).map fun s => g x y s).sum).sum).sum

/-- The sum of the absolute values of the amplitudes a list of hopping amplitudes
adds to row `a` of the matrix. -/
noncomputable def rowWeight (terms : List HoppingAmplitude) (a : Index) : ℝ :=
  (terms.map fun h => if h.toIndex = a then ‖h.amplitude‖ else 0).sum

/-- The absolute value a statement contributes to row `a` through its own
hopping amplitude. -/
noncomputable def toWeight (a : Index) (st : Statement) : ℝ :=
  if st.ha.toIndex = a then ‖st.ha.amplitude‖ else 0

/-- The absolute value a statement contributes to row `a` through its Hermitian
conjugate. -/
noncomputable def fromWeight (a : Index) (st : Statement) : ℝ :=
  if st.hc = true ∧ st.ha.fromIndex = a then ‖st.ha.amplitude‖ else 0

/-- The weight iteration `(x, y, s)` puts on row `a` at its own site: the on-site
and pairing amplitudes, and the Hermitian conjugates of all its statements. -/
noncomputable def localWeight (p : Parameters) (a : Index) (x y s : Nat) : ℝ :=
  ((onSiteStatements p x y s).map (toWeight a)).sum
    + ((pairingStatements p x y s).map (toWeight a)).sum
    + (((xBondStatements p x y s).map (fromWeight a)).sum
      + ((yBondStatements p x y s).map (fromWeight a)).sum
      + ((pairingStatements p x y s).map (fromWeight a)).sum)

/-- The weight iteration `(x, y, s)` puts on row `a` at the site `(x+1, y)`. -/
noncomputable def xForwardWeight (p : Parameters) (a : Index) (x y s : Nat) : ℝ :=
  ((xBondStatements p x y s).map (toWeight a)).sum

/-- The weight iteration `(x, y, s)` puts on row `a` at the site `(x, y+1)`. -/
noncomputable def yForwardWeight (p : Parameters) (a : Index) (x y s : Nat) : ℝ :=
  ((yBondStatements p x y s).map (toWeight a)).sum

/-! ## Concrete parameter sets -/

/-- A concrete parameter set: a 3 x 2 lattice with complex couplings. -/
def sampleParameters : Parameters where
  SIZE_X := 3
  SIZE_Y := 2
  RADIUS := 1
  BOUNDARY_WIDTH := 1
  NUM_COEFFICIENTS := 100
  ENERGY_RESOLUTION := 50
  SCALE_FACTOR := 20
  LOWER_BOUND := -1
  UPPER_BOUND := 1
  mu := 1 + Complex.I
  t := 1
  D_s := Complex.I
  D_t := 1
  alpha := 2
  V_z := 3
  cut1D := true

/-- A concrete parameter set with real `mu`, `t`, `alpha`, `V_z`, `D_t` and a
non-real `D_s`, on a 3 x 2 lattice. -/
def realParameters : Parameters where
  SIZE_X := 3
  SIZE_Y := 2
  RADIUS := 1
  BOUNDARY_WIDTH := 1
  NUM_COEFFICIENTS := 100
  ENERGY_RESOLUTION := 50
  SCALE_FACTOR := 20
  LOWER_BOUND := -1
  UPPER_BOUND := 1
  mu := 1
  t := 1
  D_s := Complex.I
  D_t := 1
  alpha := 2
  V_z := 3
  cut1D := false

/-- A concrete normal-state parameter set: a 4 x 4 lattice with hopping `t = 1`,
chemical potential `mu = 2`, no pairing, no spin-orbit and no Zeeman term. -/
def tightBindingParameters : Parameters where
  SIZE_X := 4
  SIZE_Y := 4
  RADIUS := 1
  BOUNDARY_WIDTH := 1
  NUM_COEFFICIENTS := 100
  ENERGY_RESOLUTION := 50
  SCALE_FACTOR := 10
  LOWER_BOUND := -5
  UPPER_BOUND := 5
  mu := 2
  t := 1
  D_s := 0
  D_t := 0
  alpha := 0
  V_z := 0
  cut1D := true

/-- A concrete parameter set with a non-real hopping `t = i` on a 2 x 1 lattice;
every other coupling is real. -/
def imaginaryHoppingParameters : Parameters where
  SIZE_X := 2
  SIZE_Y := 1
  RADIUS := 1
  BOUNDARY_WIDTH := 1
  NUM_COEFFICIENTS := 100
  ENERGY_RESOLUTION := 50
  SCALE_FACTOR := 10
  LOWER_BOUND := -5
  UPPER_BOUND := 5
  mu := 0
  t := Complex.I
  D_s := 0
  D_t := 0
  alpha := 0
  V_z := 0
  cut1D := true

/-- A concrete parameter set like `sampleParameters` but for the full surface:
`cut1D` is false. -/
def surfaceParameters : Parameters :=
  { sampleParameters with cut1D := false }

/-- A concrete parameter set like `sampleParameters` with two columns only. -/
def twoColumnParameters : Parameters :=
  { sampleParameters with SIZE_X := 2 }

/-- A concrete parameter set on a single site with an imaginary chemical
potential `mu = i`, no other coupling, and scale factor 1. -/
def imaginaryPotentialParameters : Parameters where
  SIZE_X := 1
  SIZE_Y := 1
  RADIUS := 1
  BOUNDARY_WIDTH := 1
  NUM_COEFFICIENTS := 100
  ENERGY_RESOLUTION := 50
  SCALE_FACTOR := 1
  LOWER_BOUND := -1
  UPPER_BOUND := 1
  mu := Complex.I
  t := 0
  D_s := 0
  D_t := 0
  alpha := 0
  V_z := 0
  cut1D := true

theorem accumulate_nil (a b : Index) : accumulate [] a b = 0 := by
  simp [accumulate]

theorem accumulate_cons (h : HoppingAmplitude) (l : List HoppingAmplitude) (a b : Index) :
    accumulate (h :: l) a b
      = (if h.toIndex = a ∧ h.fromIndex = b then h.amplitude else 0) + accumulate l a b := by
  simp [accumulate]

theorem accumulate_append (l₁ l₂ : List HoppingAmplitude) (a b : Index) :
    accumulate (l₁ ++ l₂) a b = accumulate l₁ a b + accumulate l₂ a b := by
  simp [accumulate]

theorem accumulate_flatMap {α : Type} (l : List α) (f : α → List HoppingAmplitude) (a b : Index) :
    accumulate (l.flatMap f) a b = (l.map fun i => accumulate (f i) a b).sum := by
  induction l with
  | nil => simp [accumulate]
  | cons i l ih => simp [List.flatMap_cons, accumulate_append, ih]

theorem mem_statements (p : Parameters) (st : Statement) :
    st ∈ statements p ↔
      ∃ x, x < p.SIZE_X ∧ ∃ y, y < p.SIZE_Y ∧ ∃ s, s < 2 ∧ st ∈ loopBody p x y s := by
  simp [statements, List.mem_flatMap, List.mem_range]

theorem mem_model (p : Parameters) (h : HoppingAmplitude) :
    h ∈ model p ↔ ∃ st, st ∈ statements p ∧ h ∈ st.emit := by
  simp [model, List.mem_flatMap]

/-- Every statement of `main` without `+ HC` is on-site. -/
theorem onSite_of_not_hc (p : Parameters) (st : Statement) (hst : st ∈ statements p)
    (hc : st.hc = false) : st.ha.toIndex = st.ha.fromIndex := by
  rw [mem_statements] at hst
  obtain ⟨x, -, y, -, s, -, hmem⟩ := hst
  simp only [loopBody, onSiteStatements, xBondStatements, yBondStatements, pairingStatements,
    List.mem_append] at hmem
  split_ifs at hmem <;>
    simp only [List.mem_cons, List.mem_singleton, List.not_mem_nil, or_false, false_or] at hmem <;>
    casesm* _ ∨ _ <;> subst_vars <;> simp_all

theorem accumulate_emit_swap (st : Statement)
    (hst : st.hc = false → st.ha.toIndex = st.ha.fromIndex) (a b : Index) (hab : a ≠ b) :
    accumulate st.emit b a = conj (accumulate st.emit a b) := by
  rcases st with ⟨⟨amp, i, j⟩, hc⟩
  cases hc with
  | true =>
    simp only [Statement.emit, HoppingAmplitude.getHermitianConjugate, accumulate_cons,
      accumulate_nil, if_true]
    by_cases h1 : i = a <;> by_cases h2 : j = b <;> by_cases h3 : i = b <;>
      by_cases h4 : j = a <;> simp_all
  | false =>
    have hij : i = j := hst rfl
    subst hij
    have h1 : ¬ (i = b ∧ i = a) := fun h => hab (h.2.symm.trans h.1)
    have h2 : ¬ (i = a ∧ i = b) := fun h => hab (h.1.symm.trans h.2)
    simp [Statement.emit, accumulate_cons, accumulate_nil, h1, h2]

theorem accumulate_statements_swap (L : List Statement)
    (hL : ∀ st ∈ L, st.hc = false → st.ha.toIndex = st.ha.fromIndex) (a b : Index)
    (hab : a ≠ b) :
    accumulate (L.flatMap Statement.emit) b a
      = conj (accumulate (L.flatMap Statement.emit) a b) := by
  induction L with
  | nil => simp [accumulate_nil]
  | cons st L ih =>
    have h1 := accumulate_emit_swap st (hL st (List.mem_cons_self _ _)) a b hab
    have h2 := ih (fun st' hst' => hL st' (List.mem_cons_of_mem _ hst'))
    simp only [List.flatMap_cons, accumulate_append, h1, h2, map_add]

/-! ## Endpoints of the hopping amplitudes -/

theorem mem_emit (st : Statement) (h : HoppingAmplitude) (hh : h ∈ st.emit) :
    (h.toIndex = st.ha.toIndex ∧ h.fromIndex = st.ha.fromIndex) ∨
      (st.hc = true ∧ h.toIndex = st.ha.fromIndex ∧ h.fromIndex = st.ha.toIndex) := by
  rcases st with ⟨ha, hc⟩
  cases hc <;> simp [Statement.emit, HoppingAmplitude.getHermitianConjugate] at hh ⊢
  · simp [hh]
  · rcases hh with rfl | rfl <;> simp

theorem loopBody_inBounds (p : Parameters) (x y s : Nat) (hx : x < p.SIZE_X) (hy : y < p.SIZE_Y)
    (hs : s < 2) (st : Statement) (hst : st ∈ loopBody p x y s) :
    st.ha.toIndex.inBounds p ∧ st.ha.fromIndex.inBounds p := by
  have h2 : (s + 1) % 2 < 2 := Nat.mod_lt _ (by decide)
  have hmx : (x + 1) % p.SIZE_X < p.SIZE_X := Nat.mod_lt _ (by omega)
  have hmy : (y + 1) % p.SIZE_Y < p.SIZE_Y := Nat.mod_lt _ (by omega)
  simp only [loopBody, onSiteStatements, xBondStatements, yBondStatements, pairingStatements,
    List.mem_append] at hst
  split_ifs at hst <;>
    simp only [List.mem_cons, List.mem_singleton, List.not_mem_nil, or_false, false_or] at hst <;>
    casesm* _ ∨ _ <;> subst_vars <;>
    simp only [Index.inBounds] <;> omega

theorem model_inBounds (p : Parameters) (h : HoppingAmplitude) (hh : h ∈ model p) :
    h.toIndex.inBounds p ∧ h.fromIndex.inBounds p := by
  rw [mem_model] at hh
  obtain ⟨st, hst, hmem⟩ := hh
  rw [mem_statements] at hst
  obtain ⟨x, hx, y, hy, s, hs, hbody⟩ := hst
  have hb := loopBody_inBounds p x y s hx hy hs st hbody
  rcases mem_emit st h hmem with ⟨h1, h2⟩ | ⟨-, h1, h2⟩
  · rw [h1, h2]; exact hb
  · rw [h1, h2]; exact ⟨hb.2, hb.1⟩

theorem onSite_mem_model (p : Parameters) (c : Index) (hc : c.inBounds p) :
    ∃ h ∈ model p, h.toIndex = c ∧ h.fromIndex = c := by
  obtain ⟨hx, hy, hs⟩ := hc
  rcases c with ⟨x, y, s⟩
  simp only at hx hy hs
  by_cases hs2 : s < 2
  · refine ⟨⟨-p.mu, ⟨x, y, s⟩, ⟨x, y, s⟩⟩, ?_, rfl, rfl⟩
    rw [mem_model]
    refine ⟨⟨⟨-p.mu, ⟨x, y, s⟩, ⟨x, y, s⟩⟩, false⟩, ?_, by simp [Statement.emit]⟩
    rw [mem_statements]
    exact ⟨x, hx, y, hy, s, hs2, by simp [loopBody, onSiteStatements]⟩
  · obtain ⟨s', rfl⟩ : ∃ s', s = s' + 2 := ⟨s - 2, by omega⟩
    refine ⟨⟨p.mu, ⟨x, y, s' + 2⟩, ⟨x, y, s' + 2⟩⟩, ?_, rfl, rfl⟩
    rw [mem_model]
    refine ⟨⟨⟨p.mu, ⟨x, y, s' + 2⟩, ⟨x, y, s' + 2⟩⟩, false⟩, ?_, by simp [Statement.emit]⟩
    rw [mem_statements]
    exact ⟨x, hx, y, hy, s', by omega, by simp [loopBody, onSiteStatements]⟩

theorem mem_basis (p : Parameters) (c : Index) : c ∈ basis p ↔ c.inBounds p := by
  simp only [basis, List.mem_toFinset, List.mem_append, List.mem_map]
  constructor
  · rintro (⟨h, hh, rfl⟩ | ⟨h, hh, rfl⟩)
    · exact (model_inBounds p h hh).1
    · exact (model_inBounds p h hh).2
  · intro hc
    obtain ⟨h, hh, h1, -⟩ := onSite_mem_model p c hc
    exact Or.inl ⟨h, hh, h1⟩

theorem basis_eq_image (p : Parameters) :
    basis p = ((Finset.range p.SIZE_X ×ˢ Finset.range p.SIZE_Y) ×ˢ Finset.range 4).image
      (fun c => (⟨c.1.1, c.1.2, c.2⟩ : Index)) := by
  ext c
  rw [mem_basis]
  simp only [Finset.mem_image, Finset.mem_product, Finset.mem_range, Prod.exists, Index.inBounds]
  constructor
  · rintro ⟨hx, hy, hs⟩
    exact ⟨c.x, c.y, c.s, ⟨⟨hx, hy⟩, hs⟩, rfl⟩
  · rintro ⟨x, y, s, ⟨⟨hx, hy⟩, hs⟩, rfl⟩
    exact ⟨hx, hy, hs⟩

theorem card_basis (p : Parameters) : (basis p).card = p.SIZE_X * p.SIZE_Y * 4 := by
  rw [basis_eq_image, Finset.card_image_of_injective]
  · simp [Finset.card_product]
  · rintro ⟨⟨x, y⟩, s⟩ ⟨⟨x', y'⟩, s'⟩ h
    simp only [Index.mk.injEq] at h
    obtain ⟨rfl, rfl, rfl⟩ := h
    rfl

theorem loopBody_bond (p : Parameters) (x y s : Nat) (st : Statement)
    (hst : st ∈ loopBody p x y s) :
    st.ha.fromIndex.x = x ∧ st.ha.fromIndex.y = y ∧
      ((st.ha.toIndex.x = x ∧ st.ha.toIndex.y = y) ∨
        (st.ha.toIndex.x = x + 1 ∧ st.ha.toIndex.y = y ∧ x + 1 < p.SIZE_X ∧
          (x + 1) % p.SIZE_X = x + 1) ∨
        (st.ha.toIndex.x = x ∧ st.ha.toIndex.y = y + 1 ∧ y + 1 < p.SIZE_Y ∧
          (y + 1) % p.SIZE_Y = y + 1)) := by
  simp only [loopBody, onSiteStatements, xBondStatements, yBondStatements, pairingStatements,
    List.mem_append] at hst
  split_ifs at hst with h1 h2 h2 <;>
    simp only [List.mem_cons, List.mem_singleton, List.not_mem_nil, or_false, false_or] at hst <;>
    casesm* _ ∨ _ <;> subst_vars <;>
    simp [Nat.mod_eq_of_lt, *]

theorem statements_bond (p : Parameters) (st : Statement) (hst : st ∈ statements p) :
    (st.ha.toIndex.x = st.ha.fromIndex.x ∧ st.ha.toIndex.y = st.ha.fromIndex.y) ∨
      (st.ha.toIndex.x = st.ha.fromIndex.x + 1 ∧ st.ha.toIndex.y = st.ha.fromIndex.y ∧
        st.ha.fromIndex.x + 1 < p.SIZE_X ∧
        (st.ha.fromIndex.x + 1) % p.SIZE_X = st.ha.fromIndex.x + 1) ∨
      (st.ha.toIndex.x = st.ha.fromIndex.x ∧ st.ha.toIndex.y = st.ha.fromIndex.y + 1 ∧
        st.ha.fromIndex.y + 1 < p.SIZE_Y ∧
        (st.ha.fromIndex.y + 1) % p.SIZE_Y = st.ha.fromIndex.y + 1) := by
  rw [mem_statements] at hst
  obtain ⟨x, -, y, -, s, -, hbody⟩ := hst
  obtain ⟨hx, hy, h⟩ := loopBody_bond p x y s st hbody
  rw [hx, hy]
  exact h

/-! ## Matrix elements from single loop iterations -/

theorem sum_range_single {M : Type} [AddCommMonoid M] (n k : Nat) (f : Nat → M)
    (hf : ∀ i, i < n → i ≠ k → f i = 0) :
    ((List.range n).map f).sum = if k < n then f k else 0 := by
  induction n with
  | zero => simp
  | succ n ih =>
    have ih' := ih (fun i hi hne => hf i (Nat.lt_succ_of_lt hi) hne)
    rw [List.range_succ, List.map_append, List.sum_append, ih']
    by_cases hk : k < n
    · have hn : n ≠ k := by omega
      simp [hk, Nat.lt_succ_of_lt hk, hf n (Nat.lt_succ_self n) hn]
    · by_cases hkn : k = n
      · subst hkn
        simp
      · have hn : n ≠ k := fun h => hkn h.symm
        have hk' : ¬ k < n + 1 := by omega
        simp [hk, hk', hf n (Nat.lt_succ_self n) hn]

theorem accumulate_eq_zero (l : List HoppingAmplitude) (a b : Index)
    (hl : ∀ h ∈ l, ¬ (h.toIndex = a ∧ h.fromIndex = b)) : accumulate l a b = 0 := by
  induction l with
  | nil => exact accumulate_nil a b
  | cons h l ih =>
    rw [accumulate_cons, if_neg (hl h (List.mem_cons_self _ _)),
      ih (fun h' hh' => hl h' (List.mem_cons_of_mem _ hh')), add_zero]

theorem accumulate_emit (L : List Statement) (a b : Index) :
    accumulate (L.flatMap Statement.emit) a b
      = accumulate (L.map Statement.ha) a b
        + conj (accumulate ((L.filter Statement.hc).map Statement.ha) b a) := by
  induction L with
  | nil => simp [accumulate_nil]
  | cons st L ih =>
    rcases st with ⟨⟨amp, i, j⟩, hc⟩
    have e : (j = a ∧ i = b) ↔ (i = b ∧ j = a) := and_comm
    cases hc with
    | true =>
      simp only [List.flatMap_cons, accumulate_append, ih, Statement.emit, if_true,
        HoppingAmplitude.getHermitianConjugate, accumulate_cons, accumulate_nil, List.map_cons,
        List.filter_cons_of_pos, map_add, add_zero, e, apply_ite (starRingEnd ℂ), map_zero]
      ring
    | false =>
      simp only [List.flatMap_cons, accumulate_append, ih, Statement.emit,
        accumulate_cons, accumulate_nil, List.map_cons, Bool.false_eq_true, if_false,
        not_false_eq_true, List.filter_cons_of_neg, add_zero]
      ring

theorem loopBody_from (p : Parameters) (x y s : Nat) (st : Statement)
    (hst : st ∈ loopBody p x y s) :
    st.ha.fromIndex = ⟨x, y, s⟩ ∨ st.ha.fromIndex = ⟨x, y, s + 2⟩ := by
  simp only [loopBody, onSiteStatements, xBondStatements, yBondStatements, pairingStatements,
    List.mem_append] at hst
  split_ifs at hst <;>
    simp only [List.mem_cons, List.mem_singleton, List.not_mem_nil, or_false, false_or] at hst <;>
    casesm* _ ∨ _ <;> subst_vars <;> simp

/-- A sum over the three loops of a quantity that vanishes away from the site
`(x₀, y₀)` reduces to the two iterations at that site. -/
theorem loopsSum_single {M : Type} [AddCommMonoid M] (SX SY x₀ y₀ : Nat)
    (g : Nat → Nat → Nat → M) (hg : ∀ x y s, s < 2 → (x ≠ x₀ ∨ y ≠ y₀) → g x y s = 0) :
    loopsSum SX SY g = if x₀ < SX ∧ y₀ < SY then g x₀ y₀ 0 + g x₀ y₀ 1 else 0 := by
  unfold loopsSum
  have hs : ∀ x y, (x ≠ x₀ ∨ y ≠ y₀) → ((List.range 2).map fun s => g x y s).sum = 0 := by
    intro x y hxy
    simp [List.range_succ, hg x y 0 (by decide) hxy, hg x y 1 (by decide) hxy]
  have hy : ∀ x, x ≠ x₀ → ((List.range SY).map fun y =>
      ((List.range 2).map fun s => g x y s).sum).sum = 0 := by
    intro x hx
    rw [sum_range_single SY y₀ _ (fun y _ _ => hs x y (Or.inl hx))]
    simp [hs x y₀ (Or.inl hx)]
  rw [sum_range_single SX x₀ _ (fun x _ hne => hy x hne)]
  rw [sum_range_single SY y₀ _ (fun y _ hne => hs x₀ y (Or.inr hne))]
  by_cases hx : x₀ < SX <;> by_cases hy : y₀ < SY <;> simp [hx, hy, List.range_succ]

theorem additive_flatMap {α M : Type} [AddCommMonoid M] (F : List Statement → M)
    (h0 : F [] = 0) (hadd : ∀ L₁ L₂, F (L₁ ++ L₂) = F L₁ + F L₂) (l : List α)
    (f : α → List Statement) : F (l.flatMap f) = (l.map fun i => F (f i)).sum := by
  induction l with
  | nil => simpa using h0
  | cons i l ih => simp [List.flatMap_cons, hadd, ih]

/-- An additive quantity of the statement list of `main` is the sum over the
three loops of its values on the loop bodies. -/
theorem additive_statements {M : Type} [AddCommMonoid M] (F : List Statement → M)
    (h0 : F [] = 0) (hadd : ∀ L₁ L₂, F (L₁ ++ L₂) = F L₁ + F L₂) (p : Parameters) :
    F (statements p) = loopsSum p.SIZE_X p.SIZE_Y (fun x y s => F (loopBody p x y s)) := by
  unfold statements loopsSum
  rw [additive_flatMap F h0 hadd]
  congr 1
  apply List.map_congr_left
  intro x _
  rw [additive_flatMap F h0 hadd]
  congr 1
  apply List.map_congr_left
  intro y _
  rw [additive_flatMap F h0 hadd]

/-- An additive quantity that vanishes on every loop body except the one of
iteration `(x₀, y₀, s₀)` is given by that loop body alone. -/
theorem additive_statements_single {M : Type} [AddCommMonoid M] (F : List Statement → M)
    (h0 : F [] = 0) (hadd : ∀ L₁ L₂, F (L₁ ++ L₂) = F L₁ + F L₂) (p : Parameters)
    (x₀ y₀ s₀ : Nat) (hs₀ : s₀ < 2)
    (hF : ∀ x y s, s < 2 → (x ≠ x₀ ∨ y ≠ y₀ ∨ s ≠ s₀) → F (loopBody p x y s) = 0) :
    F (statements p) =
      if x₀ < p.SIZE_X ∧ y₀ < p.SIZE_Y then F (loopBody p x₀ y₀ s₀) else 0 := by
  rw [additive_statements F h0 hadd,
    loopsSum_single _ _ x₀ y₀ _ (fun x y s hs hxy => hF x y s hs (by tauto))]
  have h2 : s₀ = 0 ∨ s₀ = 1 := by omega
  split_ifs
  · rcases h2 with rfl | rfl
    · rw [hF x₀ y₀ 1 (by decide) (by simp), add_zero]
    · rw [hF x₀ y₀ 0 (by decide) (by simp), zero_add]
  · rfl

theorem declared_single (p : Parameters) (a b : Index) :
    accumulate ((statements p).map Statement.ha) a b =
      if b.x < p.SIZE_X ∧ b.y < p.SIZE_Y then
        accumulate ((loopBody p b.x b.y (b.s % 2)).map Statement.ha) a b
      else 0 := by
  apply additive_statements_single (fun L => accumulate (L.map Statement.ha) a b)
    (by simp [accumulate_nil]) (by intro L₁ L₂; simp [accumulate_append]) p b.x b.y (b.s % 2)
    (Nat.mod_lt _ (by decide))
  intro x y s hs hne
  apply accumulate_eq_zero
  intro h hh
  rw [List.mem_map] at hh
  obtain ⟨st, hst, rfl⟩ := hh
  rintro ⟨-, hfrom⟩
  rcases loopBody_from p x y s st hst with h1 | h1 <;> rw [h1] at hfrom <;> subst hfrom <;>
    simp at hne <;> omega

theorem conjugated_single (p : Parameters) (a b : Index) :
    accumulate (((statements p).filter Statement.hc).map Statement.ha) b a =
      if a.x < p.SIZE_X ∧ a.y < p.SIZE_Y then
        accumulate (((loopBody p a.x a.y (a.s % 2)).filter Statement.hc).map Statement.ha) b a
      else 0 := by
  apply additive_statements_single
    (fun L => accumulate ((L.filter Statement.hc).map Statement.ha) b a)
    (by simp [accumulate_nil]) (by intro L₁ L₂; simp [accumulate_append]) p a.x a.y (a.s % 2)
    (Nat.mod_lt _ (by decide))
  intro x y s hs hne
  apply accumulate_eq_zero
  intro h hh
  rw [List.mem_map] at hh
  obtain ⟨st, hst, rfl⟩ := hh
  rintro ⟨-, hfrom⟩
  rcases loopBody_from p x y s st (List.mem_of_mem_filter hst) with h1 | h1 <;>
    rw [h1] at hfrom <;> subst hfrom <;> simp at hne <;> omega

/-- The matrix element `H[a][b]` comes from two loop iterations only: the
statements written at the source `b`, and the Hermitian conjugates of the
`+ HC` statements written at the source `a`. -/
theorem H_eq (p : Parameters) (a b : Index) :
    H p a b =
      (if b.x < p.SIZE_X ∧ b.y < p.SIZE_Y then
        accumulate ((loopBody p b.x b.y (b.s % 2)).map Statement.ha) a b else 0)
      + conj (if a.x < p.SIZE_X ∧ a.y < p.SIZE_Y then
        accumulate (((loopBody p a.x a.y (a.s % 2)).filter Statement.hc).map Statement.ha) b a
        else 0) := by
  rw [H, model, accumulate_emit, declared_single, conjugated_single]

/-! ## The diagonal and the Zeeman profile -/

theorem H_diagonal (p : Parameters) (x y s : Nat) (hx : x < p.SIZE_X) (hy : y < p.SIZE_Y)
    (hs : s < 2) :
    H p ⟨x, y, s⟩ ⟨x, y, s⟩ = -p.mu + (2 * (s : ℂ) - 1) * magnetization p x y ∧
    H p ⟨x, y, s + 2⟩ ⟨x, y, s + 2⟩ = p.mu - (2 * (s : ℂ) - 1) * magnetization p x y := by
  have hs' : s = 0 ∨ s = 1 := by omega
  constructor <;> rw [H_eq] <;> rcases hs' with rfl | rfl <;>
    by_cases hx1 : x + 1 < p.SIZE_X <;> by_cases hy1 : y + 1 < p.SIZE_Y <;>
    simp [hx, hy, hx1, hy1, loopBody, onSiteStatements, xBondStatements, yBondStatements,
      pairingStatements, accumulate_cons, accumulate_nil, Nat.mod_eq_of_lt] <;>
    ring

theorem magnetization_eq (p : Parameters) (x y : Nat) :
    magnetization p x y = p.V_z * ((zeemanProfile p x y : ℝ) : ℂ) := by
  simp only [magnetization, zeemanProfile]
  push_cast
  ring

theorem zeemanProfile_pos (p : Parameters) (x y : Nat) : 0 < zeemanProfile p x y := by
  simp only [zeemanProfile]
  apply div_pos _ Real.pi_pos
  linarith [Real.arctan_lt_pi_div_two
    ((Real.sqrt ((((x : Int) - ((p.SIZE_X / 2 : Nat) : Int)) * ((x : Int) - ((p.SIZE_X / 2 : Nat) : Int))
      + ((y : Int) - ((p.SIZE_Y / 2 : Nat) : Int)) * ((y : Int) - ((p.SIZE_Y / 2 : Nat) : Int)) : Int) : ℝ)
      - (p.RADIUS : ℝ)) / (p.BOUNDARY_WIDTH : ℝ))]

theorem zeemanProfile_lt_one (p : Parameters) (x y : Nat) : zeemanProfile p x y < 1 := by
  simp only [zeemanProfile]
  rw [div_lt_one Real.pi_pos]
  linarith [Real.neg_pi_div_two_lt_arctan
    ((Real.sqrt ((((x : Int) - ((p.SIZE_X / 2 : Nat) : Int)) * ((x : Int) - ((p.SIZE_X / 2 : Nat) : Int))
      + ((y : Int) - ((p.SIZE_Y / 2 : Nat) : Int)) * ((y : Int) - ((p.SIZE_Y / 2 : Nat) : Int)) : Int) : ℝ)
      - (p.RADIUS : ℝ)) / (p.BOUNDARY_WIDTH : ℝ)), Real.pi_pos]

theorem magnetization_im (p : Parameters) (x y : Nat) :
    (magnetization p x y).im = p.V_z.im * zeemanProfile p x y := by
  rw [magnetization_eq]
  simp

/-- Outside the lattice bounds the matrix has no entry. -/
theorem H_outside (p : Parameters) (a b : Index) (h : ¬ (a.inBounds p ∧ b.inBounds p)) :
    H p a b = 0 := by
  apply accumulate_eq_zero
  rintro t ht ⟨rfl, rfl⟩
  exact h (model_inBounds p t ht)

theorem H_diagonal_im (p : Parameters) (x y s : Nat) (hx : x < p.SIZE_X) (hy : y < p.SIZE_Y)
    (hs : s < 2) :
    (H p ⟨x, y, s⟩ ⟨x, y, s⟩).im = -p.mu.im + (2 * (s : ℝ) - 1) * (p.V_z.im * zeemanProfile p x y) ∧
    (H p ⟨x, y, s + 2⟩ ⟨x, y, s + 2⟩).im
      = p.mu.im - (2 * (s : ℝ) - 1) * (p.V_z.im * zeemanProfile p x y) := by
  obtain ⟨h1, h2⟩ := H_diagonal p x y s hx hy hs
  rw [h1, h2]
  have e : (2 * (s : ℂ) - 1) = (((2 * (s : ℝ) - 1 : ℝ)) : ℂ) := by push_cast; ring
  rw [e]
  constructor <;> simp [magnetization_im]

theorem H_diagonal_real (p : Parameters) (hmu : p.mu.im = 0) (hV : p.V_z.im = 0) (a : Index) :
    (H p a a).im = 0 := by
  by_cases ha : a.inBounds p
  · obtain ⟨hx, hy, hs⟩ := ha
    rcases a with ⟨x, y, s⟩
    simp only at hx hy hs
    by_cases hs2 : s < 2
    · rw [(H_diagonal_im p x y s hx hy hs2).1, hmu, hV]
      simp
    · obtain ⟨s', rfl⟩ : ∃ s', s = s' + 2 := ⟨s - 2, by omega⟩
      rw [(H_diagonal_im p x y s' hx hy (by omega)).2, hmu, hV]
      simp
  · rw [H_outside p a a (fun h => ha h.1)]
    simp

theorem H_swap_of_ne (p : Parameters) (a b : Index) (hab : a ≠ b) :
    H p b a = conj (H p a b) :=
  accumulate_statements_swap (statements p) (fun st hst => onSite_of_not_hc p st hst) a b hab

theorem hermitian_iff_real (p : Parameters) (hX : 1 ≤ p.SIZE_X) (hY : 1 ≤ p.SIZE_Y) :
    (∀ a b : Index, H p a b = conj (H p b a)) ↔ (p.mu.im = 0 ∧ p.V_z.im = 0) := by
  constructor
  · intro hH
    have h0 := hH ⟨0, 0, 0⟩ ⟨0, 0, 0⟩
    have h1 := hH ⟨0, 0, 1⟩ ⟨0, 0, 1⟩
    rw [eq_comm, Complex.conj_eq_iff_im] at h0 h1
    rw [(H_diagonal_im p 0 0 0 (by omega) (by omega) (by decide)).1] at h0
    rw [(H_diagonal_im p 0 0 1 (by omega) (by omega) (by decide)).1] at h1
    have hpos := zeemanProfile_pos p 0 0
    norm_num at h0 h1
    have hmu : p.mu.im = 0 := by linarith
    have hV : p.V_z.im * zeemanProfile p 0 0 = 0 := by linarith
    rcases mul_eq_zero.mp hV with h | h
    · exact ⟨hmu, h⟩
    · exact absurd h (ne_of_gt hpos)
  · rintro ⟨hmu, hV⟩ a b
    by_cases hab : a = b
    · subst hab
      rw [eq_comm, Complex.conj_eq_iff_im]
      exact H_diagonal_real p hmu hV a
    · exact H_swap_of_ne p b a (fun h => hab h.symm)

/-! ## Term-by-term form of the matrix elements -/

theorem accumulate_onSite (p : Parameters) (x y s : Nat) (a b : Index) :
    accumulate ((onSiteStatements p x y s).map Statement.ha) a b =
      (if (⟨x, y, s⟩ : Index) = a ∧ (⟨x, y, s⟩ : Index) = b then -p.mu else 0) +
      (if (⟨x, y, s + 2⟩ : Index) = a ∧ (⟨x, y, s + 2⟩ : Index) = b then p.mu else 0) +
      (if (⟨x, y, s⟩ : Index) = a ∧ (⟨x, y, s⟩ : Index) = b then 2 * magnetization p x y * ((s : ℂ) - 1 / 2) else 0) +
      (if (⟨x, y, s + 2⟩ : Index) = a ∧ (⟨x, y, s + 2⟩ : Index) = b then -2 * magnetization p x y * ((s : ℂ) - 1 / 2) else 0) := by
  simp only [onSiteStatements, List.map_cons, List.map_nil, accumulate_cons, accumulate_nil,
    add_zero, add_assoc]

theorem accumulate_xBond (p : Parameters) (x y s : Nat) (a b : Index) :
    accumulate ((xBondStatements p x y s).map Statement.ha) a b =
      (if x + 1 < p.SIZE_X ∧ (⟨x + 1, y, s⟩ : Index) = a ∧ (⟨x, y, s⟩ : Index) = b then -p.t else 0) +
      (if x + 1 < p.SIZE_X ∧ (⟨x + 1, y, s + 2⟩ : Index) = a ∧ (⟨x, y, s + 2⟩ : Index) = b then p.t else 0) +
      (if x + 1 < p.SIZE_X ∧ (⟨x + 1, y, (s + 1) % 2⟩ : Index) = a ∧ (⟨x, y, s⟩ : Index) = b then -p.alpha * 2 * (1 / 2 - (s : ℂ)) else 0) +
      (if x + 1 < p.SIZE_X ∧ (⟨x + 1, y, (s + 1) % 2 + 2⟩ : Index) = a ∧ (⟨x, y, s + 2⟩ : Index) = b then p.alpha * 2 * (1 / 2 - (s : ℂ)) else 0) +
      (if x + 1 < p.SIZE_X ∧ (⟨x + 1, y, s + 2⟩ : Index) = a ∧ (⟨x, y, s⟩ : Index) = b then p.D_t * 2 * (1 / 2 - (s : ℂ)) else 0) +
      (if x + 1 < p.SIZE_X ∧ (⟨x + 1, y, s⟩ : Index) = a ∧ (⟨x, y, s + 2⟩ : Index) = b then -p.D_t * 2 * (1 / 2 - (s : ℂ)) else 0) := by
  by_cases hx : x + 1 < p.SIZE_X
  · simp only [xBondStatements, if_pos hx, List.map_cons, List.map_nil, accumulate_cons,
      accumulate_nil, add_zero, add_assoc, Nat.mod_eq_of_lt hx, hx, if_true, true_and, orderparameterP]
  · simp [xBondStatements, hx, accumulate_nil]

theorem accumulate_yBond (p : Parameters) (x y s : Nat) (a b : Index) :
    accumulate ((yBondStatements p x y s).map Statement.ha) a b =
      (if y + 1 < p.SIZE_Y ∧ (⟨x, y + 1, s⟩ : Index) = a ∧ (⟨x, y, s⟩ : Index) = b then -p.t else 0) +
      (if y + 1 < p.SIZE_Y ∧ (⟨x, y + 1, s + 2⟩ : Index) = a ∧ (⟨x, y, s + 2⟩ : Index) = b then p.t else 0) +
      (if y + 1 < p.SIZE_Y ∧ (⟨x, y + 1, (s + 1) % 2⟩ : Index) = a ∧ (⟨x, y, s⟩ : Index) = b then -Complex.I * p.alpha else 0) +
      (if y + 1 < p.SIZE_Y ∧ (⟨x, y + 1, (s + 1) % 2 + 2⟩ : Index) = a ∧ (⟨x, y, s + 2⟩ : Index) = b then -Complex.I * p.alpha else 0) +
      (if y + 1 < p.SIZE_Y ∧ (⟨x, y + 1, s + 2⟩ : Index) = a ∧ (⟨x, y, s⟩ : Index) = b then Complex.I * p.D_t else 0) +
      (if y + 1 < p.SIZE_Y ∧ (⟨x, y + 1, s⟩ : Index) = a ∧ (⟨x, y, s + 2⟩ : Index) = b then Complex.I * p.D_t else 0) := by
  by_cases hy : y + 1 < p.SIZE_Y
  · simp only [yBondStatements, if_pos hy, List.map_cons, List.map_nil, accumulate_cons,
      accumulate_nil, add_zero, add_assoc, Nat.mod_eq_of_lt hy, hy, if_true, true_and, orderparameterP]
  · simp [yBondStatements, hy, accumulate_nil]

theorem accumulate_pairing (p : Parameters) (x y s : Nat) (a b : Index) :
    accumulate ((pairingStatements p x y s).map Statement.ha) a b =
      (if (⟨x, y, 3 - s⟩ : Index) = a ∧ (⟨x, y, s⟩ : Index) = b then 2 * p.D_s * ((s : ℂ) - 1 / 2) else 0) := by
  simp only [pairingStatements, List.map_cons, List.map_nil, accumulate_cons, accumulate_nil,
    add_zero, orderparameterS]

theorem filter_hc_loopBody (p : Parameters) (x y s : Nat) :
    (loopBody p x y s).filter Statement.hc =
      xBondStatements p x y s ++ yBondStatements p x y s ++ pairingStatements p x y s := by
  simp only [loopBody, onSiteStatements, xBondStatements, yBondStatements, pairingStatements,
    List.filter_append]
  split_ifs <;> simp [List.filter]

/-- The contribution to `H[a][b]` of the statements written at iteration
`(x, y, s)`, term by term. -/
theorem accumulate_loopBody (p : Parameters) (x y s : Nat) (a b : Index) :
    accumulate ((loopBody p x y s).map Statement.ha) a b =
      accumulate ((onSiteStatements p x y s).map Statement.ha) a b +
      accumulate ((xBondStatements p x y s).map Statement.ha) a b +
      accumulate ((yBondStatements p x y s).map Statement.ha) a b +
      accumulate ((pairingStatements p x y s).map Statement.ha) a b := by
  simp only [loopBody, List.map_append, accumulate_append]

theorem accumulate_loopBody_hc (p : Parameters) (x y s : Nat) (a b : Index) :
    accumulate (((loopBody p x y s).filter Statement.hc).map Statement.ha) a b =
      accumulate ((xBondStatements p x y s).map Statement.ha) a b +
      accumulate ((yBondStatements p x y s).map Statement.ha) a b +
      accumulate ((pairingStatements p x y s).map Statement.ha) a b := by
  simp only [filter_hc_loopBody, List.map_append, accumulate_append]

theorem H_particle_hole_zero (p : Parameters) (hDs : p.D_s = 0) (hDt : p.D_t = 0)
    (a b : Index) (hab : (a.s < 2 ∧ 2 ≤ b.s ∧ b.s < 4) ∨ (2 ≤ a.s ∧ a.s < 4 ∧ b.s < 2)) :
    H p a b = 0 := by
  rcases a with ⟨x', y', s'⟩
  rcases b with ⟨x, y, s⟩
  simp only at hab
  rw [H_eq]
  simp only [accumulate_loopBody, accumulate_loopBody_hc, accumulate_onSite, accumulate_xBond,
    accumulate_yBond, accumulate_pairing, hDs, hDt]
  have hcases : (s' = 0 ∨ s' = 1 ∨ s' = 2 ∨ s' = 3) ∧ (s = 0 ∨ s = 1 ∨ s = 2 ∨ s = 3) := by omega
  obtain ⟨h1, h2⟩ := hcases
  rcases h1 with rfl | rfl | rfl | rfl <;> rcases h2 with rfl | rfl | rfl | rfl <;>
    first
    | omega
    | simp

theorem magnetization_of_Vz_zero (p : Parameters) (hV : p.V_z = 0) (x y : Nat) :
    magnetization p x y = 0 := by
  rw [magnetization_eq, hV, zero_mul]

theorem tightBinding_entry (SX SY x y x' y' : Nat) (m t : ℂ)
    (hx' : x' < SX) (hy' : y' < SY) (hx : x < SX) (hy : y < SY) :
    (((if x = x' ∧ y = y' then m else 0) + if x + 1 < SX ∧ x + 1 = x' ∧ y = y' then t else 0) +
        if y + 1 < SY ∧ x = x' ∧ y + 1 = y' then t else 0) +
      (conj (if x' + 1 < SX ∧ x' + 1 = x ∧ y' = y then t else 0) +
        conj (if y' + 1 < SY ∧ x' = x ∧ y' + 1 = y then t else 0)) =
    if x' = x ∧ y' = y then m
    else if (x' = x + 1 ∧ y' = y) ∨ (x' = x ∧ y' = y + 1) then t
    else if (x' + 1 = x ∧ y' = y) ∨ (x' = x ∧ y' + 1 = y) then conj t
    else 0 := by
  by_cases h1 : x' = x ∧ y' = y
  · obtain ⟨rfl, rfl⟩ := h1
    simp
  by_cases h2 : x' = x + 1 ∧ y' = y
  · obtain ⟨rfl, rfl⟩ := h2
    have e1 : ¬ (x + 1 + 1 = x) := by omega
    simp [hx', e1]
  by_cases h3 : x' = x ∧ y' = y + 1
  · obtain ⟨rfl, rfl⟩ := h3
    have e1 : ¬ (y + 1 + 1 = y) := by omega
    simp [hy', e1]
  by_cases h4 : x' + 1 = x ∧ y' = y
  · obtain ⟨rfl, rfl⟩ := h4
    have e1 : ¬ (x' + 1 + 1 = x') := by omega
    have e2 : ¬ (x' = x' + 1 + 1) := by omega
    simp [hx, e1, e2]
  by_cases h5 : x' = x ∧ y' + 1 = y
  · obtain ⟨rfl, rfl⟩ := h5
    have e1 : ¬ (y' + 1 + 1 = y') := by omega
    have e2 : ¬ (y' = y' + 1 + 1) := by omega
    simp [hy, e1, e2]
  have e1 : ¬ (x = x' ∧ y = y') := fun h => h1 ⟨h.1.symm, h.2.symm⟩
  have e2 : ¬ (x + 1 = x' ∧ y = y') := fun h => h2 ⟨h.1.symm, h.2.symm⟩
  have e3 : ¬ (x = x' ∧ y + 1 = y') := fun h => h3 ⟨h.1.symm, h.2.symm⟩
  simp [h1, h2, h3, h4, h5, e1, e2, e3]

theorem H_tightBinding (p : Parameters) (hDs : p.D_s = 0) (hDt : p.D_t = 0)
    (ha : p.alpha = 0) (hV : p.V_z = 0) (x y x' y' s : Nat)
    (hx : x < p.SIZE_X) (hy : y < p.SIZE_Y) (hx' : x' < p.SIZE_X) (hy' : y' < p.SIZE_Y)
    (hs : s < 2) :
    H p ⟨x', y', s⟩ ⟨x, y, s⟩ =
      (if x' = x ∧ y' = y then -p.mu
       else if (x' = x + 1 ∧ y' = y) ∨ (x' = x ∧ y' = y + 1) then -p.t
       else if (x' + 1 = x ∧ y' = y) ∨ (x' = x ∧ y' + 1 = y) then -conj p.t
       else 0) ∧
    H p ⟨x', y', s + 2⟩ ⟨x, y, s + 2⟩ =
      -(if x' = x ∧ y' = y then -p.mu
       else if (x' = x + 1 ∧ y' = y) ∨ (x' = x ∧ y' = y + 1) then -p.t
       else if (x' + 1 = x ∧ y' = y) ∨ (x' = x ∧ y' + 1 = y) then -conj p.t
       else 0) := by
  have hs' : s = 0 ∨ s = 1 := by omega
  have hm := magnetization_of_Vz_zero p hV
  have e1 := tightBinding_entry p.SIZE_X p.SIZE_Y x y x' y' (-p.mu) (-p.t) hx' hy' hx hy
  have e2 := tightBinding_entry p.SIZE_X p.SIZE_Y x y x' y' p.mu p.t hx' hy' hx hy
  have e3 : ∀ (c d e : Prop) [Decidable c] [Decidable d] [Decidable e] (u v w : ℂ),
      -(if c then -u else if d then -v else if e then -w else 0)
        = if c then u else if d then v else if e then w else 0 := by
    intro c d e _ _ _ u v w
    split_ifs <;> simp
  rw [e3]
  rw [map_neg] at e1
  constructor <;> rw [H_eq] <;>
    simp only [accumulate_loopBody, accumulate_loopBody_hc, accumulate_onSite, accumulate_xBond,
      accumulate_yBond, accumulate_pairing, hDs, hDt, ha, hm] <;>
    rcases hs' with rfl | rfl <;>
    simp [hx, hy, hx', hy'] <;> assumption

theorem H_sector_zero (p : Parameters) (hDs : p.D_s = 0) (hDt : p.D_t = 0)
    (ha : p.alpha = 0) (a b : Index) (hab : a.s ≠ b.s) : H p a b = 0 := by
  by_cases hb : a.inBounds p ∧ b.inBounds p
  · obtain ⟨⟨-, -, hs'⟩, ⟨-, -, hs⟩⟩ := hb
    rcases a with ⟨x', y', s'⟩
    rcases b with ⟨x, y, s⟩
    simp only at hab hs hs'
    rw [H_eq]
    simp only [accumulate_loopBody, accumulate_loopBody_hc, accumulate_onSite, accumulate_xBond,
      accumulate_yBond, accumulate_pairing, hDs, hDt, ha]
    have hcases : (s' = 0 ∨ s' = 1 ∨ s' = 2 ∨ s' = 3) ∧ (s = 0 ∨ s = 1 ∨ s = 2 ∨ s = 3) := by
      omega
    obtain ⟨h1, h2⟩ := hcases
    rcases h1 with rfl | rfl | rfl | rfl <;> rcases h2 with rfl | rfl | rfl | rfl <;>
      first
      | omega
      | simp
  · exact H_outside p a b hb

/-! ## Particle-hole symmetry -/

theorem magnetization_conj (p : Parameters) (hV : p.V_z.im = 0) (x y : Nat) :
    conj (magnetization p x y) = magnetization p x y := by
  rw [magnetization_eq, map_mul, Complex.conj_ofReal, Complex.conj_eq_iff_im.mpr hV]

theorem particleHole_onSite (p : Parameters) (hmu : p.mu.im = 0) (hV : p.V_z.im = 0)
    (x y s : Nat) (hs : s < 2) (a b : Index) (has : a.s < 4) (hbs : b.s < 4) :
    accumulate ((onSiteStatements p x y s).map Statement.ha) (particleHole a) (particleHole b)
      = -conj (accumulate ((onSiteStatements p x y s).map Statement.ha) a b) := by
  rcases a with ⟨x', y', s'⟩
  rcases b with ⟨x₁, y₁, s₁⟩
  simp only at has hbs
  have cmu : conj p.mu = p.mu := Complex.conj_eq_iff_im.mpr hmu
  have cm := magnetization_conj p hV
  simp only [particleHole, accumulate_onSite]
  have hcases : (s' = 0 ∨ s' = 1 ∨ s' = 2 ∨ s' = 3) ∧ (s₁ = 0 ∨ s₁ = 1 ∨ s₁ = 2 ∨ s₁ = 3)
      ∧ (s = 0 ∨ s = 1) := by omega
  obtain ⟨h1, h2, h3⟩ := hcases
  rcases h1 with rfl | rfl | rfl | rfl <;> rcases h2 with rfl | rfl | rfl | rfl <;>
    rcases h3 with rfl | rfl <;>
    simp [apply_ite (starRingEnd ℂ), cmu, cm, Complex.conj_ofNat] <;>
    split_ifs <;> ring

theorem particleHole_xBond (p : Parameters) (ht : p.t.im = 0) (hal : p.alpha.im = 0)
    (hDt : p.D_t.im = 0)
    (x y s : Nat) (hs : s < 2) (a b : Index) (has : a.s < 4) (hbs : b.s < 4) :
    accumulate ((xBondStatements p x y s).map Statement.ha) (particleHole a) (particleHole b)
      = -conj (accumulate ((xBondStatements p x y s).map Statement.ha) a b) := by
  rcases a with ⟨x', y', s'⟩
  rcases b with ⟨x₁, y₁, s₁⟩
  simp only at has hbs
  have ct : conj p.t = p.t := Complex.conj_eq_iff_im.mpr ht
  have ca : conj p.alpha = p.alpha := Complex.conj_eq_iff_im.mpr hal
  have cD : conj p.D_t = p.D_t := Complex.conj_eq_iff_im.mpr hDt
  simp only [particleHole, accumulate_xBond]
  have hcases : (s' = 0 ∨ s' = 1 ∨ s' = 2 ∨ s' = 3) ∧ (s₁ = 0 ∨ s₁ = 1 ∨ s₁ = 2 ∨ s₁ = 3)
      ∧ (s = 0 ∨ s = 1) := by omega
  obtain ⟨h1, h2, h3⟩ := hcases
  rcases h1 with rfl | rfl | rfl | rfl <;> rcases h2 with rfl | rfl | rfl | rfl <;>
    rcases h3 with rfl | rfl <;>
    simp [apply_ite (starRingEnd ℂ), ct, ca, cD, Complex.conj_ofNat] <;>
    split_ifs <;> ring

theorem particleHole_yBond (p : Parameters) (ht : p.t.im = 0) (hal : p.alpha.im = 0)
    (hDt : p.D_t.im = 0)
    (x y s : Nat) (hs : s < 2) (a b : Index) (has : a.s < 4) (hbs : b.s < 4) :
    accumulate ((yBondStatements p x y s).map Statement.ha) (particleHole a) (particleHole b)
      = -conj (accumulate ((yBondStatements p x y s).map Statement.ha) a b) := by
  rcases a with ⟨x', y', s'⟩
  rcases b with ⟨x₁, y₁, s₁⟩
  simp only at has hbs
  have ct : conj p.t = p.t := Complex.conj_eq_iff_im.mpr ht
  have ca : conj p.alpha = p.alpha := Complex.conj_eq_iff_im.mpr hal
  have cD : conj p.D_t = p.D_t := Complex.conj_eq_iff_im.mpr hDt
  simp only [particleHole, accumulate_yBond]
  have hcases : (s' = 0 ∨ s' = 1 ∨ s' = 2 ∨ s' = 3) ∧ (s₁ = 0 ∨ s₁ = 1 ∨ s₁ = 2 ∨ s₁ = 3)
      ∧ (s = 0 ∨ s = 1) := by omega
  obtain ⟨h1, h2, h3⟩ := hcases
  rcases h1 with rfl | rfl | rfl | rfl <;> rcases h2 with rfl | rfl | rfl | rfl <;>
    rcases h3 with rfl | rfl <;>
    simp [apply_ite (starRingEnd ℂ), ct, ca, cD, Complex.conj_ofNat] <;>
    split_ifs <;> ring

theorem particleHole_pairing (p : Parameters) (a b : Index) (has : a.s < 4) (hbs : b.s < 4) :
    (if b.x < p.SIZE_X ∧ b.y < p.SIZE_Y then
      accumulate ((pairingStatements p b.x b.y (b.s % 2)).map Statement.ha)
        (particleHole a) (particleHole b) else 0)
      = -(if a.x < p.SIZE_X ∧ a.y < p.SIZE_Y then
          accumulate ((pairingStatements p a.x a.y (a.s % 2)).map Statement.ha) b a else 0) := by
  rcases a with ⟨x', y', s'⟩
  rcases b with ⟨x, y, s⟩
  simp only at has hbs
  simp only [particleHole, accumulate_pairing]
  have hcases : (s' = 0 ∨ s' = 1 ∨ s' = 2 ∨ s' = 3) ∧ (s = 0 ∨ s = 1 ∨ s = 2 ∨ s = 3) := by
    omega
  obtain ⟨h1, h2⟩ := hcases
  rcases h1 with rfl | rfl | rfl | rfl <;> rcases h2 with rfl | rfl | rfl | rfl <;>
    simp <;> split_ifs <;> first | (exfalso; omega) | ring

theorem H_particleHole (p : Parameters) (hmu : p.mu.im = 0) (ht : p.t.im = 0)
    (hal : p.alpha.im = 0) (hV : p.V_z.im = 0) (hDt : p.D_t.im = 0) (a b : Index)
    (has : a.s < 4) (hbs : b.s < 4) :
    H p (particleHole a) (particleHole b) = -conj (H p a b) := by
  have ex : ∀ c : Index, (particleHole c).x = c.x := fun _ => rfl
  have ey : ∀ c : Index, (particleHole c).y = c.y := fun _ => rfl
  have es : ∀ c : Index, (particleHole c).s % 2 = c.s % 2 := by
    intro c
    simp only [particleHole]
    omega
  have ha2 : a.s % 2 < 2 := Nat.mod_lt _ (by decide)
  have hb2 : b.s % 2 < 2 := Nat.mod_lt _ (by decide)
  have hp1 := particleHole_pairing p a b has hbs
  have hp2 := congrArg conj (particleHole_pairing p b a hbs has)
  rw [H_eq, H_eq, ex, ey, ex, ey, es, es]
  simp only [accumulate_loopBody, accumulate_loopBody_hc]
  rw [particleHole_onSite p hmu hV _ _ _ hb2 a b has hbs,
    particleHole_xBond p ht hal hDt _ _ _ hb2 a b has hbs,
    particleHole_yBond p ht hal hDt _ _ _ hb2 a b has hbs,
    particleHole_xBond p ht hal hDt _ _ _ ha2 b a hbs has,
    particleHole_yBond p ht hal hDt _ _ _ ha2 b a hbs has]
  by_cases hbok : b.x < p.SIZE_X ∧ b.y < p.SIZE_Y <;>
    by_cases haok : a.x < p.SIZE_X ∧ a.y < p.SIZE_Y <;>
    simp only [hbok, haok, and_self, if_true, if_false, map_add, map_neg, map_zero, Complex.conj_conj,
      neg_zero, add_zero, zero_add] at hp1 hp2 ⊢ <;>
    linear_combination hp1 + hp2

theorem H_imaginaryHopping :
    H imaginaryHoppingParameters ⟨1, 0, 0⟩ ⟨0, 0, 0⟩ = -Complex.I ∧
    H imaginaryHoppingParameters ⟨1, 0, 2⟩ ⟨0, 0, 2⟩ = Complex.I := by
  constructor <;> rw [H_eq] <;>
    simp only [accumulate_loopBody, accumulate_loopBody_hc, accumulate_onSite, accumulate_xBond,
      accumulate_yBond, accumulate_pairing] <;>
    simp [imaginaryHoppingParameters]

theorem particleHole_fails_imaginaryHopping :
    H imaginaryHoppingParameters (particleHole ⟨1, 0, 0⟩) (particleHole ⟨0, 0, 0⟩)
      ≠ -conj (H imaginaryHoppingParameters ⟨1, 0, 0⟩ ⟨0, 0, 0⟩) := by
  have e1 : particleHole ⟨1, 0, 0⟩ = ⟨1, 0, 2⟩ := rfl
  have e2 : particleHole ⟨0, 0, 0⟩ = ⟨0, 0, 2⟩ := rfl
  rw [e1, e2, H_imaginaryHopping.1, H_imaginaryHopping.2]
  intro h
  have := congrArg Complex.im h
  norm_num at this

/-! ## Absolute row sums -/

theorem rowWeight_nonneg (terms : List HoppingAmplitude) (a : Index) : 0 ≤ rowWeight terms a := by
  unfold rowWeight
  apply List.sum_nonneg
  intro r hr
  rw [List.mem_map] at hr
  obtain ⟨h, -, rfl⟩ := hr
  split_ifs
  · exact norm_nonneg _
  · exact le_refl _

theorem sum_norm_accumulate_le (terms : List HoppingAmplitude) (a : Index) (S : Finset Index) :
    ∑ b in S, ‖accumulate terms a b‖ ≤ rowWeight terms a := by
  induction terms with
  | nil => simp [accumulate, rowWeight]
  | cons h l ih =>
    have hstep : ∀ b ∈ S, ‖accumulate (h :: l) a b‖
        ≤ (if h.fromIndex = b then (if h.toIndex = a then ‖h.amplitude‖ else 0) else 0)
          + ‖accumulate l a b‖ := by
      intro b _
      rw [accumulate_cons]
      refine (norm_add_le _ _).trans (add_le_add_right ?_ _)
      by_cases h1 : h.toIndex = a <;> by_cases h2 : h.fromIndex = b <;> simp [h1, h2]
    refine (Finset.sum_le_sum hstep).trans ?_
    rw [Finset.sum_add_distrib, Finset.sum_ite_eq]
    have e : rowWeight (h :: l) a
        = (if h.toIndex = a then ‖h.amplitude‖ else 0) + rowWeight l a := by
      simp [rowWeight]
    rw [e]
    refine add_le_add ?_ ih
    split_ifs <;> simp

theorem rowWeight_emit (L : List Statement) (a : Index) :
    rowWeight (L.flatMap Statement.emit) a
      = (L.map (toWeight a)).sum + (L.map (fromWeight a)).sum := by
  induction L with
  | nil => simp [rowWeight]
  | cons st L ih =>
    have e : rowWeight ((st :: L).flatMap Statement.emit) a
        = rowWeight st.emit a + rowWeight (L.flatMap Statement.emit) a := by
      simp [rowWeight, List.flatMap_cons]
    rw [e, ih]
    rcases st with ⟨⟨amp, i, j⟩, hc⟩
    cases hc <;>
      simp [rowWeight, Statement.emit, toWeight, fromWeight,
        HoppingAmplitude.getHermitianConjugate] <;> ring

theorem loopsSum_add {M : Type} [AddCommMonoid M] (SX SY : Nat) (g₁ g₂ : Nat → Nat → Nat → M) :
    loopsSum SX SY (fun x y s => g₁ x y s + g₂ x y s) = loopsSum SX SY g₁ + loopsSum SX SY g₂ := by
  simp only [loopsSum, List.sum_map_add]

theorem rowWeight_model (p : Parameters) (a : Index) :
    rowWeight (model p) a =
      loopsSum p.SIZE_X p.SIZE_Y (localWeight p a)
      + loopsSum p.SIZE_X p.SIZE_Y (xForwardWeight p a)
      + loopsSum p.SIZE_X p.SIZE_Y (yForwardWeight p a) := by
  rw [model, rowWeight_emit,
    additive_statements (fun L => (L.map (toWeight a)).sum) (by simp) (by simp) p,
    additive_statements (fun L => (L.map (fromWeight a)).sum) (by simp) (by simp) p,
    ← loopsSum_add, ← loopsSum_add p.SIZE_X p.SIZE_Y (localWeight p a) (xForwardWeight p a),
    ← loopsSum_add p.SIZE_X p.SIZE_Y
      (fun x y s => localWeight p a x y s + xForwardWeight p a x y s) (yForwardWeight p a)]
  congr 1
  funext x y s
  have e : ((onSiteStatements p x y s).map (fromWeight a)).sum = 0 := by
    simp [onSiteStatements, fromWeight]
  simp only [loopBody, List.map_append, List.sum_append, localWeight, xForwardWeight,
    yForwardWeight, e]
  ring

theorem localWeight_eq_zero (p : Parameters) (a : Index) (x y s : Nat)
    (h : x ≠ a.x ∨ y ≠ a.y) : localWeight p a x y s = 0 := by
  rcases a with ⟨ax, ay, σ⟩
  simp only at h
  by_cases hx1 : x + 1 < p.SIZE_X <;> by_cases hy1 : y + 1 < p.SIZE_Y <;>
    rcases h with h | h <;>
    simp [localWeight, onSiteStatements, xBondStatements, yBondStatements, pairingStatements,
      toWeight, fromWeight, hx1, hy1, h]

theorem xForwardWeight_eq_zero (p : Parameters) (a : Index) (x y s : Nat)
    (h : x ≠ a.x - 1 ∨ y ≠ a.y) : xForwardWeight p a x y s = 0 := by
  rcases a with ⟨ax, ay, σ⟩
  simp only at h
  by_cases hx1 : x + 1 < p.SIZE_X
  · rcases h with h | h
    · have h' : ¬ (x + 1 = ax) := by omega
      simp [xForwardWeight, xBondStatements, toWeight, hx1, h', Nat.mod_eq_of_lt]
    · simp [xForwardWeight, xBondStatements, toWeight, hx1, h, Nat.mod_eq_of_lt]
  · simp [xForwardWeight, xBondStatements, hx1]

theorem yForwardWeight_eq_zero (p : Parameters) (a : Index) (x y s : Nat)
    (h : x ≠ a.x ∨ y ≠ a.y - 1) : yForwardWeight p a x y s = 0 := by
  rcases a with ⟨ax, ay, σ⟩
  simp only at h
  by_cases hy1 : y + 1 < p.SIZE_Y
  · rcases h with h | h
    · simp [yForwardWeight, yBondStatements, toWeight, hy1, h, Nat.mod_eq_of_lt]
    · have h' : ¬ (y + 1 = ay) := by omega
      simp [yForwardWeight, yBondStatements, toWeight, hy1, h', Nat.mod_eq_of_lt]
  · simp [yForwardWeight, yBondStatements, hy1]

theorem norm_magnetization_le (p : Parameters) (x y : Nat) :
    ‖magnetization p x y‖ ≤ ‖p.V_z‖ := by
  rw [magnetization_eq, norm_mul, Complex.norm_real, Real.norm_of_nonneg (zeemanProfile_pos p x y).le]
  exact mul_le_of_le_one_right (norm_nonneg _) (zeemanProfile_lt_one p x y).le

theorem abs_one_sub_half : Complex.abs (1 - 2⁻¹) = 2⁻¹ := by
  have e : (1 - 2⁻¹ : ℂ) = ((2⁻¹ : ℝ) : ℂ) := by
    push_cast
    norm_num
  rw [e, Complex.abs_ofReal]
  norm_num

theorem abs_half_sub_one : Complex.abs (2⁻¹ - 1) = 2⁻¹ := by
  have e : (2⁻¹ - 1 : ℂ) = -(1 - 2⁻¹) := by ring
  rw [e, map_neg_eq_map, abs_one_sub_half]

theorem localWeight_le (p : Parameters) (ax ay σ : Nat) (hσ : σ < 4) :
    localWeight p ⟨ax, ay, σ⟩ ax ay 0 + localWeight p ⟨ax, ay, σ⟩ ax ay 1
      ≤ ‖p.mu‖ + ‖p.V_z‖ + 2 * (‖p.t‖ + ‖p.alpha‖ + ‖p.D_t‖) + ‖p.D_s‖ := by
  have hm := norm_magnetization_le p ax ay
  have h1 := norm_nonneg p.t
  have h2 := norm_nonneg p.alpha
  have h3 := norm_nonneg p.D_t
  simp only [Complex.norm_eq_abs] at hm h1 h2 h3
  have hcases : σ = 0 ∨ σ = 1 ∨ σ = 2 ∨ σ = 3 := by omega
  rcases hcases with rfl | rfl | rfl | rfl <;>
    by_cases hx1 : ax + 1 < p.SIZE_X <;> by_cases hy1 : ay + 1 < p.SIZE_Y <;>
    simp [localWeight, onSiteStatements, xBondStatements, yBondStatements, pairingStatements,
      toWeight, fromWeight, hx1, hy1, orderparameterP, orderparameterS, abs_one_sub_half,
      abs_half_sub_one] <;>
    linarith

theorem xForwardWeight_le (p : Parameters) (a : Index) (x y : Nat) :
    xForwardWeight p a x y 0 + xForwardWeight p a x y 1 ≤ ‖p.t‖ + ‖p.alpha‖ + ‖p.D_t‖ := by
  have h1 := norm_nonneg p.t
  have h2 := norm_nonneg p.alpha
  have h3 := norm_nonneg p.D_t
  simp only [Complex.norm_eq_abs] at h1 h2 h3
  rcases a with ⟨ax, ay, σ⟩
  by_cases hx1 : x + 1 < p.SIZE_X
  · by_cases hσ : σ < 4
    · have hcases : σ = 0 ∨ σ = 1 ∨ σ = 2 ∨ σ = 3 := by omega
      rcases hcases with rfl | rfl | rfl | rfl <;>
        simp [xForwardWeight, xBondStatements, toWeight, hx1, orderparameterP,
          abs_one_sub_half, abs_half_sub_one, Nat.mod_eq_of_lt] <;>
        split_ifs <;> linarith
    · have e0 : ¬ (0 = σ) := by omega
      have e1 : ¬ (1 = σ) := by omega
      have e2 : ¬ (2 = σ) := by omega
      have e3 : ¬ (3 = σ) := by omega
      simp [xForwardWeight, xBondStatements, toWeight, hx1, e0, e1, e2, e3]
      linarith
  · simp [xForwardWeight, xBondStatements, hx1]
    linarith

theorem yForwardWeight_le (p : Parameters) (a : Index) (x y : Nat) :
    yForwardWeight p a x y 0 + yForwardWeight p a x y 1 ≤ ‖p.t‖ + ‖p.alpha‖ + ‖p.D_t‖ := by
  have h1 := norm_nonneg p.t
  have h2 := norm_nonneg p.alpha
  have h3 := norm_nonneg p.D_t
  simp only [Complex.norm_eq_abs] at h1 h2 h3
  rcases a with ⟨ax, ay, σ⟩
  by_cases hy1 : y + 1 < p.SIZE_Y
  · by_cases hσ : σ < 4
    · have hcases : σ = 0 ∨ σ = 1 ∨ σ = 2 ∨ σ = 3 := by omega
      rcases hcases with rfl | rfl | rfl | rfl <;>
        simp [yForwardWeight, yBondStatements, toWeight, hy1, orderparameterP,
          abs_one_sub_half, abs_half_sub_one, Nat.mod_eq_of_lt] <;>
        split_ifs <;> linarith
    · have e0 : ¬ (0 = σ) := by omega
      have e1 : ¬ (1 = σ) := by omega
      have e2 : ¬ (2 = σ) := by omega
      have e3 : ¬ (3 = σ) := by omega
      simp [yForwardWeight, yBondStatements, toWeight, hy1, e0, e1, e2, e3]
      linarith
  · simp [yForwardWeight, yBondStatements, hy1]
    linarith

theorem spectralBound_nonneg (p : Parameters) : 0 ≤ spectralBound p := by
  unfold spectralBound
  positivity

theorem rowWeight_model_le (p : Parameters) (a : Index) (ha : a.s < 4) :
    rowWeight (model p) a ≤ spectralBound p := by
  have h1 := norm_nonneg p.t
  have h2 := norm_nonneg p.alpha
  have h3 := norm_nonneg p.D_t
  have h4 := norm_nonneg p.mu
  have h5 := norm_nonneg p.V_z
  have h6 := norm_nonneg p.D_s
  rw [rowWeight_model,
    loopsSum_single _ _ a.x a.y _ (fun x y s _ h => localWeight_eq_zero p a x y s h),
    loopsSum_single _ _ (a.x - 1) a.y _ (fun x y s _ h => xForwardWeight_eq_zero p a x y s h),
    loopsSum_single _ _ a.x (a.y - 1) _ (fun x y s _ h => yForwardWeight_eq_zero p a x y s h)]
  have b1 := localWeight_le p a.x a.y a.s ha
  have b2 := xForwardWeight_le p a (a.x - 1) a.y
  have b3 := yForwardWeight_le p a a.x (a.y - 1)
  unfold spectralBound
  split_ifs <;> linarith

/-- Every row of the matrix of `main` has absolute row sum at most the bound. -/
theorem row_sum_le (p : Parameters) (a : Index) :
    ∑ b in basis p, ‖H p a b‖ ≤ spectralBound p := by
  by_cases ha : a.s < 4
  · exact (sum_norm_accumulate_le (model p) a (basis p)).trans (rowWeight_model_le p a ha)
  · have h0 : ∀ b ∈ basis p, ‖H p a b‖ = 0 := by
      intro b _
      rw [H_outside p a b (fun h => ha h.1.2.2), norm_zero]
    rw [Finset.sum_eq_zero h0]
    exact spectralBound_nonneg p

theorem hamiltonian_row_sum_le (p : Parameters) (k : basis p) :
    ∑ j, ‖hamiltonian p k j‖ ≤ spectralBound p := by
  have e : ∑ j : basis p, ‖hamiltonian p k j‖ = ∑ b in basis p, ‖H p k.1 b‖ := by
    simp only [hamiltonian, Matrix.of_apply]
    exact Finset.sum_coe_sort (basis p) (fun b => ‖H p k.1 b‖)
  rw [e]
  exact row_sum_le p k.1

/-! ## Eigenvalues -/

/-- Gershgorin: an eigenvalue of a matrix is bounded by the largest absolute
row sum. -/
theorem norm_eigenvalue_le_of_row_sum {n : Type} [Fintype n] [DecidableEq n]
    (A : Matrix n n ℂ) (B : ℝ) (hA : ∀ k, ∑ j, ‖A k j‖ ≤ B) (lam : ℂ)
    (h : Module.End.HasEigenvalue (Matrix.toLin' A) lam) : ‖lam‖ ≤ B := by
  obtain ⟨k, hk⟩ := eigenvalue_mem_ball h
  rw [Metric.mem_closedBall, dist_eq_norm] at hk
  have h1 : ‖lam‖ ≤ ‖A k k‖ + ‖lam - A k k‖ := by
    have := norm_add_le (A k k) (lam - A k k)
    simpa using this
  have h2 : ‖A k k‖ + ∑ j ∈ Finset.univ.erase k, ‖A k j‖ = ∑ j, ‖A k j‖ :=
    Finset.add_sum_erase Finset.univ (fun j => ‖A k j‖) (Finset.mem_univ k)
  linarith [hA k]

theorem eigenvalue_le (p : Parameters) (lam : ℂ)
    (h : Module.End.HasEigenvalue (Matrix.toLin' (hamiltonian p)) lam) :
    ‖lam‖ ≤ spectralBound p :=
  norm_eigenvalue_le_of_row_sum (hamiltonian p) (spectralBound p) (hamiltonian_row_sum_le p) lam h

theorem rescaled_eigenvalue_le (p : Parameters) (hS : spectralBound p ≤ (p.SCALE_FACTOR : ℝ))
    (lam : ℂ) (h : Module.End.HasEigenvalue (Matrix.toLin' (rescaledHamiltonian p)) lam) :
    ‖lam‖ ≤ 1 := by
  apply norm_eigenvalue_le_of_row_sum (rescaledHamiltonian p) 1 _ lam h
  intro k
  have h0 := spectralBound_nonneg p
  have e : ∑ j, ‖rescaledHamiltonian p k j‖
      = |(p.SCALE_FACTOR : ℝ)|⁻¹ * ∑ j, ‖hamiltonian p k j‖ := by
    simp only [rescaledHamiltonian, Matrix.smul_apply, smul_eq_mul, norm_mul, norm_inv,
      Complex.norm_real, Real.norm_eq_abs, Finset.mul_sum]
  rw [e, abs_of_nonneg (h0.trans hS)]
  by_cases hz : (p.SCALE_FACTOR : ℝ) = 0
  · rw [hz, inv_zero, zero_mul]
    exact zero_le_one
  · have hpos : 0 < (p.SCALE_FACTOR : ℝ) := lt_of_le_of_ne (h0.trans hS) (Ne.symm hz)
    rw [inv_mul_le_iff₀ hpos, mul_one]
    exact (hamiltonian_row_sum_le p k).trans hS

theorem exists_eigenvector {n : Type} [Fintype n] [DecidableEq n] (A : Matrix n n ℂ) (lam : ℂ)
    (h : Module.End.HasEigenvalue (Matrix.toLin' A) lam) :
    ∃ v : n → ℂ, v ≠ 0 ∧ ∀ i, ∑ j, A i j * v j = lam * v i := by
  obtain ⟨v, hv⟩ := h.exists_hasEigenvector
  refine ⟨v, hv.2, fun i => ?_⟩
  have h1 := Module.End.mem_eigenspace_iff.mp hv.1
  have h2 := congrFun h1 i
  simpa [Matrix.toLin'_apply, Matrix.mulVec, Matrix.dotProduct] using h2

theorem hasEigenvalue_of_eigenvector {n : Type} [Fintype n] [DecidableEq n] (A : Matrix n n ℂ)
    (lam : ℂ) (v : n → ℂ) (hv : v ≠ 0) (h : ∀ i, ∑ j, A i j * v j = lam * v i) :
    Module.End.HasEigenvalue (Matrix.toLin' A) lam := by
  apply Module.End.hasEigenvalue_of_hasEigenvector (x := v)
  refine ⟨Module.End.mem_eigenspace_iff.mpr ?_, hv⟩
  funext i
  simpa [Matrix.toLin'_apply, Matrix.mulVec, Matrix.dotProduct] using h i

/-- The eigenvalues of a Hermitian matrix are real. -/
theorem eigenvalue_im_eq_zero {n : Type} [Fintype n] [DecidableEq n] (A : Matrix n n ℂ)
    (hA : ∀ i j, A i j = conj (A j i)) (lam : ℂ)
    (h : Module.End.HasEigenvalue (Matrix.toLin' A) lam) : lam.im = 0 := by
  obtain ⟨v, hv, hev⟩ := exists_eigenvector A lam h
  have hq : ∑ i, conj (v i) * ∑ j, A i j * v j = lam * ∑ i, conj (v i) * v i := by
    rw [Finset.mul_sum]
    apply Finset.sum_congr rfl
    intro i _
    rw [hev i]
    ring
  have hconj : conj (∑ i, conj (v i) * ∑ j, A i j * v j)
      = ∑ i, conj (v i) * ∑ j, A i j * v j := by
    simp only [map_sum, map_mul, Complex.conj_conj, Finset.mul_sum]
    rw [Finset.sum_comm]
    apply Finset.sum_congr rfl
    intro i _
    apply Finset.sum_congr rfl
    intro j _
    rw [← hA i j]
    ring
  have hN : conj (∑ i, conj (v i) * v i) = ∑ i, conj (v i) * v i := by
    simp only [map_sum, map_mul, Complex.conj_conj]
    apply Finset.sum_congr rfl
    intro i _
    ring
  have hNne : (∑ i, conj (v i) * v i) ≠ 0 := by
    intro h0
    apply hv
    have hre : ∑ i, Complex.normSq (v i) = 0 := by
      have := congrArg Complex.re h0
      simpa [Complex.normSq_apply, Complex.mul_re] using this
    funext i
    have hi := (Finset.sum_eq_zero_iff_of_nonneg (fun i _ => Complex.normSq_nonneg (v i))).mp hre i
      (Finset.mem_univ i)
    exact Complex.normSq_eq_zero.mp hi
  rw [hq, map_mul, hN] at hconj
  have := mul_right_cancel₀ hNne hconj
  exact Complex.conj_eq_iff_im.mp this

/-- A matrix with `A (P i) (P j) = -conj (A i j)` for an involution `P` has a
spectrum symmetric under `lam -> -conj lam`. -/
theorem eigenvalue_neg_conj {n : Type} [Fintype n] [DecidableEq n] (A : Matrix n n ℂ)
    (P : n → n) (hP : ∀ i, P (P i) = i) (hA : ∀ i j, A (P i) (P j) = -conj (A i j)) (lam : ℂ)
    (h : Module.End.HasEigenvalue (Matrix.toLin' A) lam) :
    Module.End.HasEigenvalue (Matrix.toLin' A) (-conj lam) := by
  obtain ⟨v, hv, hev⟩ := exists_eigenvector A lam h
  let e : n ≃ n := ⟨P, P, hP, hP⟩
  apply hasEigenvalue_of_eigenvector A (-conj lam) (fun i => conj (v (P i)))
  · intro h0
    apply hv
    funext i
    have := congrFun h0 (P i)
    simpa [hP] using this
  · intro i
    have h1 : ∑ j, A i j * conj (v (P j)) = ∑ j, A i (P j) * conj (v j) := by
      rw [← Equiv.sum_comp e (fun j => A i (P j) * conj (v j))]
      apply Finset.sum_congr rfl
      intro j _
      show A i j * conj (v (P j)) = A i (P (P j)) * conj (v (P j))
      rw [hP]
    have h2 : ∀ j, A i (P j) = -conj (A (P i) j) := by
      intro j
      have := hA (P i) j
      rw [hP] at this
      exact this
    rw [h1]
    simp only [h2]
    have h3 := congrArg conj (hev (P i))
    simp only [map_sum, map_mul] at h3
    simp only [neg_mul, Finset.sum_neg_distrib, h3]

theorem particleHole_inBounds (p : Parameters) (a : Index) (ha : a.inBounds p) :
    (particleHole a).inBounds p := by
  obtain ⟨hx, hy, _⟩ := ha
  exact ⟨hx, hy, Nat.mod_lt _ (by decide)⟩

theorem particleHole_involutive (a : Index) (ha : a.s < 4) :
    particleHole (particleHole a) = a := by
  rcases a with ⟨x, y, s⟩
  simp only at ha
  simp only [particleHole, Index.mk.injEq, true_and]
  omega

theorem hamiltonian_hermitian (p : Parameters) (hmu : p.mu.im = 0) (hV : p.V_z.im = 0)
    (i j : basis p) : hamiltonian p i j = conj (hamiltonian p j i) := by
  simp only [hamiltonian, Matrix.of_apply]
  by_cases hij : i.1 = j.1
  · rw [hij, eq_comm, Complex.conj_eq_iff_im]
    exact H_diagonal_real p hmu hV j.1
  · exact H_swap_of_ne p j.1 i.1 (fun h => hij h.symm)

theorem rescaledHamiltonian_hermitian (p : Parameters) (hmu : p.mu.im = 0) (hV : p.V_z.im = 0)
    (i j : basis p) : rescaledHamiltonian p i j = conj (rescaledHamiltonian p j i) := by
  simp only [rescaledHamiltonian, Matrix.smul_apply, smul_eq_mul, map_mul, map_inv₀,
    Complex.conj_ofReal]
  rw [← hamiltonian_hermitian p hmu hV i j]

theorem eigenvalue_real (p : Parameters) (hmu : p.mu.im = 0) (hV : p.V_z.im = 0) (lam : ℂ)
    (h : Module.End.HasEigenvalue (Matrix.toLin' (hamiltonian p)) lam) : lam.im = 0 :=
  eigenvalue_im_eq_zero (hamiltonian p) (hamiltonian_hermitian p hmu hV) lam h

theorem spectrum_symmetric (p : Parameters) (hmu : p.mu.im = 0) (ht : p.t.im = 0)
    (hal : p.alpha.im = 0) (hV : p.V_z.im = 0) (hDt : p.D_t.im = 0) (lam : ℂ)
    (h : Module.End.HasEigenvalue (Matrix.toLin' (hamiltonian p)) lam) :
    Module.End.HasEigenvalue (Matrix.toLin' (hamiltonian p)) (-lam) := by
  have hreal : conj lam = lam := Complex.conj_eq_iff_im.mpr (eigenvalue_real p hmu hV lam h)
  have hs : ∀ a : basis p, a.1.s < 4 := fun a => ((mem_basis p a.1).mp a.2).2.2
  have key := eigenvalue_neg_conj (hamiltonian p)
    (fun a => ⟨particleHole a.1,
      (mem_basis p _).mpr (particleHole_inBounds p a.1 ((mem_basis p a.1).mp a.2))⟩)
    (fun a => Subtype.ext (particleHole_involutive a.1 (hs a)))
    (fun a b => by
      simp only [hamiltonian, Matrix.of_apply]
      exact H_particleHole p hmu ht hal hV hDt a.1 b.1 (hs a) (hs b))
    lam h
  rwa [hreal] at key

/-! ## The energy window and the LDOS request -/

theorem flatten_map_singleton {α β : Type} (f : α → β) (l : List α) :
    (l.map fun x => [f x]).flatten = l.map f := by
  induction l with
  | nil => rfl
  | cons a l ih => simp [ih]

theorem ldosRequest_cut (p : Parameters) (hc : p.cut1D = true) :
    (ldosRequest p).sites = (List.range p.SIZE_X).map (fun x => (x, p.SIZE_Y / 2)) ∧
    (ldosRequest p).spinChannels = [0, 1] ∧
    (ldosRequest p).energyResolution = p.ENERGY_RESOLUTION := by
  simp [ldosRequest, hc, LDOSRequest.sites, LDOSRequest.spinChannels, Subindex.values,
    List.range_succ, List.flatMap_def, flatten_map_singleton]

theorem ldosRequest_surface (p : Parameters) (hc : p.cut1D = false) :
    (ldosRequest p).sites = List.range p.SIZE_X ×ˢ List.range p.SIZE_Y ∧
    (ldosRequest p).spinChannels = [0, 1] ∧
    (ldosRequest p).energyResolution = p.ENERGY_RESOLUTION := by
  simp [ldosRequest, hc, LDOSRequest.sites, LDOSRequest.spinChannels, Subindex.values,
    List.range_succ]
  rfl

/-! ## The claims -/

/-- C1. For every lattice size and every choice of the complex parameters, the
matrix accumulated from the hopping amplitudes of `main` satisfies
`H[b][a] = conj(H[a][b])` for every pair of distinct indices `a`, `b`. -/
theorem H_offDiagonal_hermitian (p : Parameters) (a b : Index) (hab : a ≠ b) :
    H p b a = conj (H p a b) :=
  accumulate_statements_swap (statements p) (fun st hst => onSite_of_not_hc p st hst) a b hab

/-- Witness for C1 on the sample lattice, between two sectors of one site. -/
theorem H_offDiagonal_hermitian_witness :
    (⟨0, 0, 0⟩ : Index) ≠ ⟨0, 0, 3⟩ ∧
      H sampleParameters ⟨0, 0, 3⟩ ⟨0, 0, 0⟩ = conj (H sampleParameters ⟨0, 0, 0⟩ ⟨0, 0, 3⟩) :=
  ⟨by decide, H_offDiagonal_hermitian sampleParameters ⟨0, 0, 0⟩ ⟨0, 0, 3⟩ (by decide)⟩

/-- C2 fails as stated: on the sample lattice, where `mu = 1 + i`, the diagonal
element at `(0, 0, 0)` has a non-zero imaginary part. -/
theorem diagonal_not_real_sample :
    (H sampleParameters ⟨0, 0, 0⟩ ⟨0, 0, 0⟩).im ≠ 0 := by
  rw [(H_diagonal_im sampleParameters 0 0 0 (by decide) (by decide) (by decide)).1]
  simp [sampleParameters]

/-- C2, amended. When `mu` and `V_z` are real, every diagonal element of the
matrix accumulated by `main` has zero imaginary part. -/
theorem diagonal_real_of_real_mu_Vz (p : Parameters) (hmu : p.mu.im = 0) (hV : p.V_z.im = 0)
    (a : Index) : (H p a a).im = 0 :=
  H_diagonal_real p hmu hV a

/-- Witness for the amended C2: `mu = 1` and `V_z = 3` are real. -/
theorem diagonal_real_of_real_mu_Vz_witness :
    (realParameters.mu.im = 0 ∧ realParameters.V_z.im = 0) ∧
      (H realParameters ⟨1, 1, 2⟩ ⟨1, 1, 2⟩).im = 0 :=
  ⟨⟨by simp [realParameters], by simp [realParameters]⟩,
    diagonal_real_of_real_mu_Vz realParameters (by simp [realParameters])
      (by simp [realParameters]) ⟨1, 1, 2⟩⟩

/-- C3. The coordinates occurring as destination or source of a hopping
amplitude of `main` are exactly those with `x < SIZE_X`, `y < SIZE_Y` and sector
below 4: no endpoint is outside the lattice, every coordinate inside occurs as
an on-site term, and the basis has `SIZE_X * SIZE_Y * 4` elements. -/
theorem coordinates_exactly_lattice (p : Parameters) :
    (∀ c : Index, (∃ h ∈ model p, h.toIndex = c ∨ h.fromIndex = c) ↔
        (c.x < p.SIZE_X ∧ c.y < p.SIZE_Y ∧ c.s < 4)) ∧
    (∀ h ∈ model p, h.toIndex.inBounds p ∧ h.fromIndex.inBounds p) ∧
    (∀ c : Index, c.inBounds p → ∃ h ∈ model p, h.toIndex = c ∧ h.fromIndex = c) ∧
    (basis p).card = p.SIZE_X * p.SIZE_Y * 4 := by
  refine ⟨fun c => ⟨?_, ?_⟩, model_inBounds p, onSite_mem_model p, card_basis p⟩
  · rintro ⟨h, hh, rfl | rfl⟩
    · exact (model_inBounds p h hh).1
    · exact (model_inBounds p h hh).2
  · intro hc
    obtain ⟨h, hh, h1, -⟩ := onSite_mem_model p c hc
    exact ⟨h, hh, Or.inl h1⟩

/-- C4 fails as stated: on the lattice with two columns the Hermitian conjugate
of the bond written at `(0, 0, 0)` goes along a row from column `SIZE_X-1` to
column `0`. -/
theorem conjugate_links_last_column_to_first :
    ∃ st ∈ statements twoColumnParameters, st.hc = true ∧
      st.ha.getHermitianConjugate ∈ model twoColumnParameters ∧
      st.ha.getHermitianConjugate.fromIndex.x + 1 = twoColumnParameters.SIZE_X ∧
      st.ha.getHermitianConjugate.toIndex.x = 0 ∧
      st.ha.getHermitianConjugate.toIndex.y = st.ha.getHermitianConjugate.fromIndex.y ∧
      st.ha.getHermitianConjugate.toIndex.x ≠ st.ha.getHermitianConjugate.fromIndex.x := by
  have hst : (⟨⟨-twoColumnParameters.t, ⟨(0 + 1) % twoColumnParameters.SIZE_X, 0, 0⟩, ⟨0, 0, 0⟩⟩,
      true⟩ : Statement) ∈ statements twoColumnParameters := by
    rw [mem_statements]
    refine ⟨0, by decide, 0, by decide, 0, by decide, ?_⟩
    have hg : 0 + 1 < twoColumnParameters.SIZE_X := by decide
    simp only [loopBody, xBondStatements, if_pos hg, List.mem_append, List.mem_cons, true_or,
      or_true]
  refine ⟨_, hst, rfl, ?_, by decide, rfl, rfl, by decide⟩
  rw [mem_model]
  exact ⟨_, hst, by simp [Statement.emit]⟩

/-- C4, amended. Every statement of `main` between two different sites goes from
`(x, y)` to `(x+1, y)` with `x+1 < SIZE_X` or to `(x, y+1)` with `y+1 < SIZE_Y`,
and there the modulo is the identity; every hopping amplitude of the model
between different sites, Hermitian conjugates included, is such a bond or the
reverse of one.  So no statement goes along a row from column `SIZE_X-1` to
column `0` or along a column from row `SIZE_Y-1` to row `0`, and for
`SIZE_X ≥ 3` (`SIZE_Y ≥ 3`) no hopping amplitude, Hermitian conjugates
included, joins column `SIZE_X-1` and column `0` (row `SIZE_Y-1` and row `0`)
in either direction; with two columns (rows) the last and the first are
neighbours of the open lattice. -/
theorem lattice_open (p : Parameters) :
    (∀ st ∈ statements p,
      (st.ha.toIndex.x ≠ st.ha.fromIndex.x ∨ st.ha.toIndex.y ≠ st.ha.fromIndex.y) →
        (st.ha.toIndex.x = st.ha.fromIndex.x + 1 ∧ st.ha.toIndex.y = st.ha.fromIndex.y ∧
          st.ha.fromIndex.x + 1 < p.SIZE_X ∧
          (st.ha.fromIndex.x + 1) % p.SIZE_X = st.ha.fromIndex.x + 1) ∨
        (st.ha.toIndex.x = st.ha.fromIndex.x ∧ st.ha.toIndex.y = st.ha.fromIndex.y + 1 ∧
          st.ha.fromIndex.y + 1 < p.SIZE_Y ∧
          (st.ha.fromIndex.y + 1) % p.SIZE_Y = st.ha.fromIndex.y + 1)) ∧
    (∀ h ∈ model p, (h.toIndex.x ≠ h.fromIndex.x ∨ h.toIndex.y ≠ h.fromIndex.y) →
        (h.toIndex.x = h.fromIndex.x + 1 ∧ h.toIndex.y = h.fromIndex.y ∧
          h.fromIndex.x + 1 < p.SIZE_X) ∨
        (h.toIndex.x = h.fromIndex.x ∧ h.toIndex.y = h.fromIndex.y + 1 ∧
          h.fromIndex.y + 1 < p.SIZE_Y) ∨
        (h.fromIndex.x = h.toIndex.x + 1 ∧ h.fromIndex.y = h.toIndex.y ∧
          h.toIndex.x + 1 < p.SIZE_X) ∨
        (h.fromIndex.x = h.toIndex.x ∧ h.fromIndex.y = h.toIndex.y + 1 ∧
          h.toIndex.y + 1 < p.SIZE_Y)) ∧
    (∀ st ∈ statements p,
      (st.ha.toIndex.x ≠ st.ha.fromIndex.x ∨ st.ha.toIndex.y ≠ st.ha.fromIndex.y) →
        ¬ (st.ha.fromIndex.x + 1 = p.SIZE_X ∧ st.ha.toIndex.x = 0 ∧
            st.ha.toIndex.y = st.ha.fromIndex.y) ∧
        ¬ (st.ha.fromIndex.y + 1 = p.SIZE_Y ∧ st.ha.toIndex.y = 0 ∧
            st.ha.toIndex.x = st.ha.fromIndex.x)) ∧
    (3 ≤ p.SIZE_X → ∀ h ∈ model p,
        ¬ (h.fromIndex.x + 1 = p.SIZE_X ∧ h.toIndex.x = 0) ∧
        ¬ (h.toIndex.x + 1 = p.SIZE_X ∧ h.fromIndex.x = 0)) ∧
    (3 ≤ p.SIZE_Y → ∀ h ∈ model p,
        ¬ (h.fromIndex.y + 1 = p.SIZE_Y ∧ h.toIndex.y = 0) ∧
        ¬ (h.toIndex.y + 1 = p.SIZE_Y ∧ h.fromIndex.y = 0)) := by
  have hmodel : ∀ h ∈ model p,
      (h.toIndex.x = h.fromIndex.x ∧ h.toIndex.y = h.fromIndex.y) ∨
      (h.toIndex.x = h.fromIndex.x + 1 ∧ h.toIndex.y = h.fromIndex.y ∧
        h.fromIndex.x + 1 < p.SIZE_X) ∨
      (h.toIndex.x = h.fromIndex.x ∧ h.toIndex.y = h.fromIndex.y + 1 ∧
        h.fromIndex.y + 1 < p.SIZE_Y) ∨
      (h.fromIndex.x = h.toIndex.x + 1 ∧ h.fromIndex.y = h.toIndex.y ∧
        h.toIndex.x + 1 < p.SIZE_X) ∨
      (h.fromIndex.x = h.toIndex.x ∧ h.fromIndex.y = h.toIndex.y + 1 ∧
        h.toIndex.y + 1 < p.SIZE_Y) := by
    intro h hh
    rw [mem_model] at hh
    obtain ⟨st, hst, hmem⟩ := hh
    have hb := statements_bond p st hst
    rcases mem_emit st h hmem with ⟨h1, h2⟩ | ⟨-, h1, h2⟩ <;> rw [h1, h2] <;>
      rcases hb with hb | hb | hb <;> omega
  refine ⟨?_, ?_, ?_, ?_, ?_⟩
  · intro st hst hne
    rcases statements_bond p st hst with hb | hb | hb
    · omega
    · exact Or.inl hb
    · exact Or.inr hb
  · intro h hh hne
    rcases hmodel h hh with hb | hb | hb | hb | hb
    · omega
    · exact Or.inl hb
    · exact Or.inr (Or.inl hb)
    · exact Or.inr (Or.inr (Or.inl hb))
    · exact Or.inr (Or.inr (Or.inr hb))
  · intro st hst hne
    rcases statements_bond p st hst with hb | hb | hb <;> omega
  · intro h3 h hh
    rcases hmodel h hh with hb | hb | hb | hb | hb <;> omega
  · intro h3 h hh
    rcases hmodel h hh with hb | hb | hb | hb | hb <;> omega

/-- Witness for C4: the sample lattice has three columns. -/
theorem lattice_open_witness :
    3 ≤ sampleParameters.SIZE_X ∧
      ∀ h ∈ model sampleParameters,
        ¬ (h.fromIndex.x + 1 = sampleParameters.SIZE_X ∧ h.toIndex.x = 0) ∧
        ¬ (h.toIndex.x + 1 = sampleParameters.SIZE_X ∧ h.fromIndex.x = 0) :=
  ⟨by decide, (lattice_open sampleParameters).2.2.2.1 (by decide)⟩

/-- C5. With `D_s = 0` and `D_t = 0` the matrix of `main` has no element between a
particle sector (0, 1) and a hole sector (2, 3).  If also `alpha = 0` and
`V_z = 0`, it is the direct sum over the four sectors of the nearest-neighbour
tight-binding matrix of the open lattice: in sector `s` in `{0,1}` the element
`H[(x',y',s)][(x,y,s)]` is `-mu` on the site, `-t` for `(x',y')` equal to
`(x+1,y)` or `(x,y+1)`, `-conj t` for `(x',y')` equal to `(x-1,y)` or `(x,y-1)`,
and 0 otherwise; sector `s+2` has the negative of this; elements between
different sectors are 0. -/
theorem normal_state_tightBinding (p : Parameters) (hDs : p.D_s = 0) (hDt : p.D_t = 0) :
    (∀ a b : Index, ((a.s < 2 ∧ 2 ≤ b.s ∧ b.s < 4) ∨ (2 ≤ a.s ∧ a.s < 4 ∧ b.s < 2)) →
      H p a b = 0) ∧
    (p.alpha = 0 → p.V_z = 0 →
      (∀ x y x' y' s : Nat, x < p.SIZE_X → y < p.SIZE_Y → x' < p.SIZE_X → y' < p.SIZE_Y →
        s < 2 →
        H p ⟨x', y', s⟩ ⟨x, y, s⟩ =
          (if x' = x ∧ y' = y then -p.mu
           else if (x' = x + 1 ∧ y' = y) ∨ (x' = x ∧ y' = y + 1) then -p.t
           else if (x' + 1 = x ∧ y' = y) ∨ (x' = x ∧ y' + 1 = y) then -conj p.t
           else 0) ∧
        H p ⟨x', y', s + 2⟩ ⟨x, y, s + 2⟩ =
          -(if x' = x ∧ y' = y then -p.mu
           else if (x' = x + 1 ∧ y' = y) ∨ (x' = x ∧ y' = y + 1) then -p.t
           else if (x' + 1 = x ∧ y' = y) ∨ (x' = x ∧ y' + 1 = y) then -conj p.t
           else 0)) ∧
      (∀ a b : Index, a.s ≠ b.s → H p a b = 0)) :=
  ⟨fun a b hab => H_particle_hole_zero p hDs hDt a b hab,
    fun ha hV => ⟨fun x y x' y' s hx hy hx' hy' hs =>
      H_tightBinding p hDs hDt ha hV x y x' y' s hx hy hx' hy' hs,
      fun a b hab => H_sector_zero p hDs hDt ha a b hab⟩⟩

/-- Witness for C5 on the 4 x 4 normal-state lattice. -/
theorem normal_state_tightBinding_witness :
    (tightBindingParameters.D_s = 0 ∧ tightBindingParameters.D_t = 0 ∧
      tightBindingParameters.alpha = 0 ∧ tightBindingParameters.V_z = 0) ∧
    H tightBindingParameters ⟨1, 3, 2⟩ ⟨0, 3, 0⟩ = 0 ∧
    H tightBindingParameters ⟨2, 1, 0⟩ ⟨1, 1, 0⟩ = -1 ∧
    H tightBindingParameters ⟨2, 1, 3⟩ ⟨1, 1, 3⟩ = 1 := by
  have h := normal_state_tightBinding tightBindingParameters rfl rfl
  have h2 := (h.2 rfl rfl).1 1 1 2 1
  refine ⟨⟨rfl, rfl, rfl, rfl⟩, h.1 _ _ (Or.inr ⟨by decide, by decide, by decide⟩), ?_, ?_⟩
  · have := (h2 0 (by decide) (by decide) (by decide) (by decide) (by decide)).1
    simpa [tightBindingParameters] using this
  · have := (h2 1 (by decide) (by decide) (by decide) (by decide) (by decide)).2
    simpa [tightBindingParameters] using this

/-- C6 fails as stated: on a single site with `mu = i` and `SCALE_FACTOR = 1 = B`
the rescaled Hamiltonian has the eigenvalue `-i`, which is not in `[-1, 1]`. -/
theorem rescaled_eigenvalue_not_real :
    imaginaryPotentialParameters.BOUNDARY_WIDTH ≠ 0 ∧
    ‖imaginaryPotentialParameters.mu‖ + ‖imaginaryPotentialParameters.V_z‖
        + 4 * (‖imaginaryPotentialParameters.t‖ + ‖imaginaryPotentialParameters.alpha‖
          + ‖imaginaryPotentialParameters.D_t‖) + ‖imaginaryPotentialParameters.D_s‖
      ≤ (imaginaryPotentialParameters.SCALE_FACTOR : ℝ) ∧
    Module.End.HasEigenvalue (Matrix.toLin' (rescaledHamiltonian imaginaryPotentialParameters))
      (-Complex.I) ∧
    (-Complex.I).im = -1 ∧
    ¬ ((-Complex.I).im = 0 ∧ -1 ≤ (-Complex.I).re ∧ (-Complex.I).re ≤ 1) := by
  have hmem : (⟨0, 0, 0⟩ : Index) ∈ basis imaginaryPotentialParameters :=
    (mem_basis _ _).mpr (by decide)
  refine ⟨by decide, by simp [imaginaryPotentialParameters], ?_, by simp, by simp⟩
  apply hasEigenvalue_of_eigenvector _ _
    (fun a : basis imaginaryPotentialParameters => if a.1 = ⟨0, 0, 0⟩ then (1 : ℂ) else 0)
  · intro h0
    have := congrFun h0 ⟨⟨0, 0, 0⟩, hmem⟩
    simp at this
  · intro i
    rw [Finset.sum_eq_single (⟨⟨0, 0, 0⟩, hmem⟩ : basis imaginaryPotentialParameters)]
    · simp only [rescaledHamiltonian, hamiltonian, Matrix.smul_apply, Matrix.of_apply, smul_eq_mul,
        if_true, mul_one]
      by_cases hi : i.1 = ⟨0, 0, 0⟩
      · rw [hi, (H_diagonal imaginaryPotentialParameters 0 0 0 (by decide) (by decide)
          (by decide)).1, magnetization_of_Vz_zero _ rfl]
        simp [imaginaryPotentialParameters]
      · have hb := (mem_basis _ _).mp i.2
        have hs : i.1.s ≠ 0 := by
          intro hs
          apply hi
          rcases i with ⟨⟨x, y, s⟩, hi'⟩
          obtain ⟨hx, hy, -⟩ := hb
          simp only [imaginaryPotentialParameters] at hx hy hs
          simp only [Index.mk.injEq]
          omega
        rw [H_sector_zero imaginaryPotentialParameters rfl rfl rfl i.1 ⟨0, 0, 0⟩ hs]
        simp [hi]
    · intro b _ hb
      have : b.1 ≠ ⟨0, 0, 0⟩ := fun h => hb (Subtype.ext h)
      simp [this]
    · intro h
      exact absurd (Finset.mem_univ _) h

/-- C6, amended. With the Zeeman profile factor a real number in (0,1), every row of the
matrix of `main` has absolute row sum at most
`B = |mu| + |V_z| + 4(|t| + |alpha| + |D_t|) + |D_s|`; hence every eigenvalue
has absolute value at most `B`, a scale factor `SCALE_FACTOR ≥ B` puts the
eigenvalues of `H / SCALE_FACTOR` in the unit disc (in `[-1, 1]` when `mu` and
`V_z` are real), and when only `t` is non-zero the eigenvalues are real and lie
in `[-4|t|, 4|t|]`. -/
theorem spectrum_within_spectralBound (p : Parameters) (_hB : p.BOUNDARY_WIDTH ≠ 0) :
    (∀ x y : Nat, 0 < zeemanProfile p x y ∧ zeemanProfile p x y < 1) ∧
    (∀ a : Index, ∑ b in basis p, ‖H p a b‖
      ≤ ‖p.mu‖ + ‖p.V_z‖ + 4 * (‖p.t‖ + ‖p.alpha‖ + ‖p.D_t‖) + ‖p.D_s‖) ∧
    (∀ lam : ℂ, Module.End.HasEigenvalue (Matrix.toLin' (hamiltonian p)) lam →
      ‖lam‖ ≤ ‖p.mu‖ + ‖p.V_z‖ + 4 * (‖p.t‖ + ‖p.alpha‖ + ‖p.D_t‖) + ‖p.D_s‖) ∧
    (‖p.mu‖ + ‖p.V_z‖ + 4 * (‖p.t‖ + ‖p.alpha‖ + ‖p.D_t‖) + ‖p.D_s‖ ≤ (p.SCALE_FACTOR : ℝ) →
      ∀ lam : ℂ, Module.End.HasEigenvalue (Matrix.toLin' (rescaledHamiltonian p)) lam →
        ‖lam‖ ≤ 1 ∧ (p.mu.im = 0 → p.V_z.im = 0 → lam.im = 0 ∧ -1 ≤ lam.re ∧ lam.re ≤ 1)) ∧
    (p.mu = 0 → p.V_z = 0 → p.alpha = 0 → p.D_t = 0 → p.D_s = 0 →
      ∀ lam : ℂ, Module.End.HasEigenvalue (Matrix.toLin' (hamiltonian p)) lam →
        lam.im = 0 ∧ -(4 * ‖p.t‖) ≤ lam.re ∧ lam.re ≤ 4 * ‖p.t‖) := by
  refine ⟨fun x y => ⟨zeemanProfile_pos p x y, zeemanProfile_lt_one p x y⟩,
    fun a => row_sum_le p a, fun lam h => eigenvalue_le p lam h, ?_, ?_⟩
  · intro hS lam h
    have hn := rescaled_eigenvalue_le p hS lam h
    refine ⟨hn, fun hmu hV => ?_⟩
    have him := eigenvalue_im_eq_zero (rescaledHamiltonian p)
      (rescaledHamiltonian_hermitian p hmu hV) lam h
    have hre := Complex.abs_re_le_abs lam
    rw [← Complex.norm_eq_abs] at hre
    have := abs_le.mp (hre.trans hn)
    exact ⟨him, this.1, this.2⟩
  · intro hmu hV hal hDt hDs lam h
    have hn := eigenvalue_le p lam h
    have him := eigenvalue_real p (by simp [hmu]) (by simp [hV]) lam h
    simp only [spectralBound, hmu, hV, hal, hDt, hDs, norm_zero, add_zero, zero_add] at hn
    have hre := Complex.abs_re_le_abs lam
    rw [← Complex.norm_eq_abs] at hre
    have := abs_le.mp (hre.trans hn)
    exact ⟨him, this.1, this.2⟩

/-- Witness for C6: the row of `(1, 0, 2)` on the sample lattice, whose
boundary width is 1. -/
theorem spectrum_within_spectralBound_witness :
    sampleParameters.BOUNDARY_WIDTH ≠ 0 ∧
    ∑ b in basis sampleParameters, ‖H sampleParameters ⟨1, 0, 2⟩ b‖
      ≤ ‖sampleParameters.mu‖ + ‖sampleParameters.V_z‖
        + 4 * (‖sampleParameters.t‖ + ‖sampleParameters.alpha‖ + ‖sampleParameters.D_t‖)
        + ‖sampleParameters.D_s‖ :=
  ⟨by decide, (spectrum_within_spectralBound sampleParameters (by decide)).2.1 ⟨1, 0, 2⟩⟩

/-- C7. For `SIZE_X, SIZE_Y ≥ 1`: with `cut1D` set, the LDOS request of `main`
fixes `y = SIZE_Y/2 < SIZE_Y` and addresses exactly the `SIZE_X` sites
`(x, SIZE_Y/2)`, `x < SIZE_X`; otherwise it addresses exactly the
`SIZE_X * SIZE_Y` sites of the lattice; in both cases with the 2 spin channels
0 and 1 at each site, `ENERGY_RESOLUTION` energy samples, and every addressed
coordinate is in the basis of the model. -/
theorem ldosRequest_addresses (p : Parameters) (_hX : 1 ≤ p.SIZE_X) (hY : 1 ≤ p.SIZE_Y) :
    (p.cut1D = true →
      (ldosRequest p).sites = (List.range p.SIZE_X).map (fun x => (x, p.SIZE_Y / 2)) ∧
      (ldosRequest p).sites.length = p.SIZE_X ∧ (ldosRequest p).sites.Nodup ∧
      p.SIZE_Y / 2 < p.SIZE_Y ∧
      (∀ x y : Nat, (x, y) ∈ (ldosRequest p).sites ↔ (x < p.SIZE_X ∧ y = p.SIZE_Y / 2))) ∧
    (p.cut1D = false →
      (ldosRequest p).sites.length = p.SIZE_X * p.SIZE_Y ∧ (ldosRequest p).sites.Nodup ∧
      (∀ x y : Nat, (x, y) ∈ (ldosRequest p).sites ↔ (x < p.SIZE_X ∧ y < p.SIZE_Y))) ∧
    (ldosRequest p).spinChannels = [0, 1] ∧ (ldosRequest p).spinChannels.length = 2 ∧
    (ldosRequest p).energyResolution = p.ENERGY_RESOLUTION ∧
    (∀ x y σ : Nat, (x, y) ∈ (ldosRequest p).sites → σ ∈ (ldosRequest p).spinChannels →
      (⟨x, y, σ⟩ : Index) ∈ basis p) := by
  have hhalf : p.SIZE_Y / 2 < p.SIZE_Y := Nat.div_lt_self (by omega) (by decide)
  have hcut : p.cut1D = true →
      ∀ x y : Nat, (x, y) ∈ (ldosRequest p).sites ↔ (x < p.SIZE_X ∧ y = p.SIZE_Y / 2) := by
    intro hc x y
    rw [(ldosRequest_cut p hc).1]
    simp only [List.mem_map, List.mem_range, Prod.mk.injEq]
    constructor
    · rintro ⟨x', hx', rfl, rfl⟩
      exact ⟨hx', rfl⟩
    · rintro ⟨hx, rfl⟩
      exact ⟨x, hx, rfl, rfl⟩
  have hsurf : p.cut1D = false →
      ∀ x y : Nat, (x, y) ∈ (ldosRequest p).sites ↔ (x < p.SIZE_X ∧ y < p.SIZE_Y) := by
    intro hc x y
    rw [(ldosRequest_surface p hc).1]
    simp [List.mem_range]
  have hspin : (ldosRequest p).spinChannels = [0, 1] := by
    cases hc : p.cut1D
    · exact (ldosRequest_surface p hc).2.1
    · exact (ldosRequest_cut p hc).2.1
  have hres : (ldosRequest p).energyResolution = p.ENERGY_RESOLUTION := by
    cases hc : p.cut1D
    · exact (ldosRequest_surface p hc).2.2
    · exact (ldosRequest_cut p hc).2.2
  refine ⟨fun hc => ⟨(ldosRequest_cut p hc).1, ?_, ?_, hhalf, hcut hc⟩,
    fun hc => ⟨?_, ?_, hsurf hc⟩, hspin, by rw [hspin]; rfl, hres, ?_⟩
  · rw [(ldosRequest_cut p hc).1, List.length_map, List.length_range]
  · rw [(ldosRequest_cut p hc).1]
    refine List.Nodup.map ?_ (List.nodup_range _)
    intro x x' h
    exact (Prod.mk.inj h).1
  · rw [(ldosRequest_surface p hc).1, List.length_product, List.length_range, List.length_range]
  · rw [(ldosRequest_surface p hc).1]
    exact List.Nodup.product (List.nodup_range _) (List.nodup_range _)
  · intro x y σ hsite hσ
    rw [hspin] at hσ
    have hσ4 : σ < 4 := by
      simp only [List.mem_cons, List.mem_singleton, List.not_mem_nil, or_false] at hσ
      omega
    rw [mem_basis]
    cases hc : p.cut1D
    · obtain ⟨hx, hy⟩ := (hsurf hc x y).mp hsite
      exact ⟨hx, hy, hσ4⟩
    · obtain ⟨hx, hy⟩ := (hcut hc x y).mp hsite
      exact ⟨hx, by simp only; omega, hσ4⟩

/-- Witness for C7 on the sample lattice (1D cut, 3 x 2 sites). -/
theorem ldosRequest_addresses_witness :
    (1 ≤ sampleParameters.SIZE_X ∧ 1 ≤ sampleParameters.SIZE_Y) ∧
    (ldosRequest sampleParameters).sites = [(0, 1), (1, 1), (2, 1)] ∧
    (ldosRequest sampleParameters).spinChannels = [0, 1] ∧
    (ldosRequest sampleParameters).energyResolution = 50 ∧
    (ldosRequest surfaceParameters).sites.length = 3 * 2 :=
  ⟨⟨by decide, by decide⟩,
    ((ldosRequest_addresses sampleParameters (by decide) (by decide)).1 rfl).1.trans (by decide),
    (ldosRequest_addresses sampleParameters (by decide) (by decide)).2.2.1,
    (ldosRequest_addresses sampleParameters (by decide) (by decide)).2.2.2.2.1,
    ((ldosRequest_addresses surfaceParameters (by decide) (by decide)).2.1 rfl).1⟩

/-- C9. With real `mu`, `t`, `alpha`, `V_z` and `D_t` (and any complex `D_s`) the
matrix of `main` satisfies `H[P a][P b] = -conj(H[a][b])` for all coordinates
with sector below 4, where `P` exchanges particle and hole sectors, and its
spectrum is symmetric about zero; for the parameter set with `t = i` the
identity fails. -/
theorem particleHole_symmetry :
    (∀ p : Parameters, p.mu.im = 0 → p.t.im = 0 → p.alpha.im = 0 → p.V_z.im = 0 →
      p.D_t.im = 0 →
      (∀ a b : Index, a.s < 4 → b.s < 4 →
        H p (particleHole a) (particleHole b) = -conj (H p a b)) ∧
      (∀ lam : ℂ, Module.End.HasEigenvalue (Matrix.toLin' (hamiltonian p)) lam →
        lam.im = 0 ∧ Module.End.HasEigenvalue (Matrix.toLin' (hamiltonian p)) (-lam))) ∧
    (∃ p : Parameters, (p.t.im ≠ 0 ∨ p.alpha.im ≠ 0 ∨ p.D_t.im ≠ 0) ∧
      p.mu.im = 0 ∧ p.V_z.im = 0 ∧
      ∃ a b : Index, a.inBounds p ∧ b.inBounds p ∧
        H p (particleHole a) (particleHole b) ≠ -conj (H p a b)) := by
  refine ⟨fun p hmu ht hal hV hDt => ⟨fun a b ha hb => H_particleHole p hmu ht hal hV hDt a b ha hb,
    fun lam h => ⟨eigenvalue_real p hmu hV lam h, spectrum_symmetric p hmu ht hal hV hDt lam h⟩⟩,
    imaginaryHoppingParameters, ?_, ?_, ?_, ⟨1, 0, 0⟩, ⟨0, 0, 0⟩, ?_, ?_,
    particleHole_fails_imaginaryHopping⟩
  · left
    simp [imaginaryHoppingParameters]
  · simp [imaginaryHoppingParameters]
  · simp [imaginaryHoppingParameters]
  · decide
  · decide

/-- Witness for C9 on the lattice with real couplings and `D_s = i`. -/
theorem particleHole_symmetry_witness :
    (realParameters.mu.im = 0 ∧ realParameters.t.im = 0 ∧ realParameters.alpha.im = 0 ∧
      realParameters.V_z.im = 0 ∧ realParameters.D_t.im = 0) ∧
    H realParameters (particleHole ⟨1, 0, 3⟩) (particleHole ⟨1, 0, 0⟩)
      = -conj (H realParameters ⟨1, 0, 3⟩ ⟨1, 0, 0⟩) := by
  have h1 : realParameters.mu.im = 0 := by simp [realParameters]
  have h2 : realParameters.t.im = 0 := by simp [realParameters]
  have h3 : realParameters.alpha.im = 0 := by simp [realParameters]
  have h4 : realParameters.V_z.im = 0 := by simp [realParameters]
  have h5 : realParameters.D_t.im = 0 := by simp [realParameters]
  exact ⟨⟨h1, h2, h3, h4, h5⟩,
    (particleHole_symmetry.1 realParameters h1 h2 h3 h4 h5).1 _ _ (by decide) (by decide)⟩

/-- C10. For `SIZE_X, SIZE_Y ≥ 1` and `BOUNDARY_WIDTH ≠ 0` the matrix accumulated by
`main` is Hermitian (diagonal included) exactly when `mu` and `V_z` have zero
imaginary part: the Zeeman profile factor is a real number strictly between 0
and 1, the off-diagonal part is always Hermitian, and the diagonal element at
`(x, y, s)`, `s` in `{0,1}`, is `-mu + (2s-1)*m(x,y)` and at `(x, y, s+2)` is
`mu - (2s-1)*m(x,y)`.  The values of `t`, `alpha`, `D_s` and `D_t` do not
matter: two parameter sets with the same `mu` and `V_z` are Hermitian
together. -/
theorem hermitian_iff_mu_Vz_real (p : Parameters) (hX : 1 ≤ p.SIZE_X) (hY : 1 ≤ p.SIZE_Y)
    (_hB : p.BOUNDARY_WIDTH ≠ 0) :
    ((∀ a b : Index, H p a b = conj (H p b a)) ↔ (p.mu.im = 0 ∧ p.V_z.im = 0)) ∧
    (∀ x y : Nat, magnetization p x y = p.V_z * ((zeemanProfile p x y : ℝ) : ℂ) ∧
      0 < zeemanProfile p x y ∧ zeemanProfile p x y < 1) ∧
    (∀ a b : Index, a ≠ b → H p a b = conj (H p b a)) ∧
    (∀ x y s : Nat, x < p.SIZE_X → y < p.SIZE_Y → s < 2 →
      H p ⟨x, y, s⟩ ⟨x, y, s⟩ = -p.mu + (2 * (s : ℂ) - 1) * magnetization p x y ∧
      H p ⟨x, y, s + 2⟩ ⟨x, y, s + 2⟩ = p.mu - (2 * (s : ℂ) - 1) * magnetization p x y) ∧
    (∀ q : Parameters, 1 ≤ q.SIZE_X → 1 ≤ q.SIZE_Y → q.BOUNDARY_WIDTH ≠ 0 →
      q.mu = p.mu → q.V_z = p.V_z →
      ((∀ a b : Index, H q a b = conj (H q b a)) ↔ (∀ a b : Index, H p a b = conj (H p b a)))) :=
  ⟨hermitian_iff_real p hX hY,
    fun x y => ⟨magnetization_eq p x y, zeemanProfile_pos p x y, zeemanProfile_lt_one p x y⟩,
    fun a b hab => H_swap_of_ne p b a (fun h => hab h.symm),
    fun x y s hx hy hs => H_diagonal p x y s hx hy hs,
    fun q hqX hqY _ hmu hV => by
      rw [hermitian_iff_real q hqX hqY, hermitian_iff_real p hX hY, hmu, hV]⟩

/-- Witness for C10 on the sample lattice. -/
theorem hermitian_iff_mu_Vz_real_witness :
    (1 ≤ sampleParameters.SIZE_X ∧ 1 ≤ sampleParameters.SIZE_Y ∧
      sampleParameters.BOUNDARY_WIDTH ≠ 0) ∧
    ((∀ a b : Index, H sampleParameters a b = conj (H sampleParameters b a)) ↔
      (sampleParameters.mu.im = 0 ∧ sampleParameters.V_z.im = 0)) :=
  ⟨⟨by decide, by decide, by decide⟩,
    (hermitian_iff_mu_Vz_real sampleParameters (by decide) (by decide) (by decide)).1⟩

end TBTK
